import Mathlib

/-!
Verification of the asset360 rule-engine core (SHACL-subset constraint
engine) against its natural-language specification.

The development shallowly embeds the Rust sources:
  - `shacl_ast.rs`   : property paths, constraint AST, enforcement levels,
                       shape results, violations;
  - `forward_eval.rs`: forward evaluation of an AST against a flat record;
  - `backward_solver.rs`: substitute / simplify / extract backward solving;
  - `predicate.rs`   : the predicate algebra (and/or/not combinators);
  - `scope_predicate.rs`: scope-predicate derivation from raw query text;
  - `constraint_set.rs`: the orchestrating constraint-set API;
  - `shacl_parser.rs`: the triple-store walk that compiles shapes to rules
                       (the third-party Turtle tokenizer is out of scope, so
                       the embedding starts from an already-built triple
                       store, exactly the `TripleStore` struct of the source).

JSON values (`serde_json::Value`) are modelled with integer numerals; no
claim in scope exercises floating-point literals.
-/

/-- Model of `serde_json::Value`. Numbers are modelled as integers (the
claims under verification only exercise integral numerals). -/
inductive Json where
  | null : Json
  | bool (b : Bool) : Json
  | num (n : Int) : Json
  | str (s : String) : Json
  | arr (items : List Json) : Json
  | obj (fields : List (String × Json)) : Json
  deriving Repr

mutual

/-- Structural equality on JSON values (model of `serde_json`'s `PartialEq`). -/
def Json.beq : Json → Json → Bool
  | .null, .null => true
  | .bool a, .bool b => a == b
  | .num a, .num b => a == b
  | .str a, .str b => a == b
  | .arr xs, .arr ys => Json.beqList xs ys
  | .obj xs, .obj ys => Json.beqFields xs ys
  | _, _ => false

def Json.beqList : List Json → List Json → Bool
  | [], [] => true
  | x :: xs, y :: ys => Json.beq x y && Json.beqList xs ys
  | _, _ => false

def Json.beqFields : List (String × Json) → List (String × Json) → Bool
  | [], [] => true
  | (k, v) :: xs, (k2, v2) :: ys => k == k2 && Json.beq v v2 && Json.beqFields xs ys
  | _, _ => false

end

instance : BEq Json := ⟨Json.beq⟩

mutual

theorem Json.beq_iff : ∀ a b : Json, Json.beq a b = true ↔ a = b
  | .null, b => by cases b <;> simp [Json.beq]
  | .bool x, b => by cases b <;> simp [Json.beq]
  | .num x, b => by cases b <;> simp [Json.beq]
  | .str x, b => by cases b <;> simp [Json.beq]
  | .arr xs, b => by
      cases b <;> simp [Json.beq]
      exact Json.beqList_iff xs _
  | .obj xs, b => by
      cases b <;> simp [Json.beq]
      exact Json.beqFields_iff xs _

theorem Json.beqList_iff : ∀ xs ys : List Json, Json.beqList xs ys = true ↔ xs = ys
  | [], ys => by cases ys <;> simp [Json.beqList]
  | x :: xs, [] => by simp [Json.beqList]
  | x :: xs, y :: ys => by
      simp [Json.beqList, Json.beq_iff x y, Json.beqList_iff xs ys]

theorem Json.beqFields_iff :
    ∀ xs ys : List (String × Json), Json.beqFields xs ys = true ↔ xs = ys
  | [], ys => by cases ys <;> simp [Json.beqFields]
  | x :: xs, [] => by simp [Json.beqFields]
  | (k, v) :: xs, (k2, v2) :: ys => by
      simp [Json.beqFields, Json.beq_iff v v2, Json.beqFields_iff xs ys, and_assoc]

end

instance : DecidableEq Json := fun a b => decidable_of_iff _ (Json.beq_iff a b)

theorem Json.beq_eq_decide (a b : Json) : (a == b) = decide (a = b) := by
  by_cases h : a = b
  · simp [h, BEq.beq, Json.beq_iff]
  · have h1 : Json.beq a b = false := by
      cases hb : Json.beq a b
      · rfl
      · exact absurd ((Json.beq_iff a b).mp hb) h
    simp [BEq.beq, h1, h]

-- ── String helpers (models of the Rust `str` methods used by the code) ──

/-- Model of `str::rsplit_once` on the underlying character list: splits at
the last occurrence of `c`, returning the parts before and after it. -/
def rsplitOnceChars (c : Char) : List Char → Option (List Char × List Char)
  | [] => none
  | a :: rest =>
    match rsplitOnceChars c rest with
    | some (pre, post) => some (a :: pre, post)
    | none => if a = c then some ([], rest) else none

/-- Model of `str::rsplit_once`. -/
def rsplitOnce (c : Char) (s : String) : Option (String × String) :=
  match rsplitOnceChars c s.data with
  | some (pre, post) => some (⟨pre⟩, ⟨post⟩)
  | none => none

theorem rsplitOnceChars_eq_none_iff (c : Char) :
    ∀ l : List Char, rsplitOnceChars c l = none ↔ c ∉ l := by
  intro l
  induction l with
  | nil => simp [rsplitOnceChars]
  | cons a rest ih =>
    simp only [rsplitOnceChars, List.mem_cons]
    cases h : rsplitOnceChars c rest with
    | some p =>
      have hc : c ∈ rest := by
        by_contra hcn
        rw [ih.mpr hcn] at h
        exact Option.noConfusion h
      simp [hc]
    | none =>
      have hcn : c ∉ rest := ih.mp h
      by_cases hac : a = c
      · simp [hac]
      · have hca : ¬c = a := fun hh => hac hh.symm
        simp [hac, hcn, hca]

-- ── shacl_ast.rs ────────────────────────────────────────────────────────

/-- A SHACL property path expression (`PropertyPath` in `shacl_ast.rs`). -/
inductive PropertyPath where
  | iri (iri : String)
  | sequence (steps : List PropertyPath)
  | inverse (path : PropertyPath)
  deriving Repr

/-- Model of `PropertyPath::local_name`: for an IRI path, the substring
after the last `#`, or failing that the last `/`; `none` otherwise. -/
def PropertyPath.local_name : PropertyPath → Option String
  | .iri s =>
    match rsplitOnce '#' s with
    | some (_, name) => some name
    | none =>
      match rsplitOnce '/' s with
      | some (_, name) => some name
      | none => none
  | _ => none

/-- Abstract syntax tree for a SHACL constraint (`ShaclAst` in `shacl_ast.rs`). -/
inductive ShaclAst where
  | and (children : List ShaclAst)
  | or (children : List ShaclAst)
  | not (child : ShaclAst)
  | propEquals (path : PropertyPath) (value : Json)
  | propIn (path : PropertyPath) (values : List Json)
  | propCount (path : PropertyPath) (min : Option Nat) (max : Option Nat)
  | pathEquals (path_a : PropertyPath) (path_b : PropertyPath)
  | pathDisjoint (path_a : PropertyPath) (path_b : PropertyPath)
  deriving Repr

/-- Enforcement level for a constraint violation (`EnforcementLevel`). -/
inductive EnforcementLevel where
  | critical
  | serious
  | error
  | unlikely
  deriving DecidableEq, Repr

/-- Model of `EnforcementLevel::is_blocking`. -/
def EnforcementLevel.is_blocking : EnforcementLevel → Bool
  | .critical => true
  | .serious => true
  | _ => false

/-- Result of parsing a single SHACL shape (`ShapeResult` in `shacl_ast.rs`). -/
structure ShapeResult where
  shape_uri : String
  target_class : String
  enforcement_level : EnforcementLevel
  message : String
  affected_fields : List String
  introspectable : Bool
  ast : Option ShaclAst
  sparql : Option String
  deriving Repr

/-- A violation produced by forward evaluation (`Violation` in `shacl_ast.rs`). -/
structure Violation where
  fields : List String
  message : String
  enforcement_level : EnforcementLevel
  suggested_fix : Option String
  deriving Repr

-- ── forward_eval.rs ─────────────────────────────────────────────────────

/-- Lookup of a key in the field list of a JSON object. -/
def lookupField : List (String × Json) → String → Option Json
  | [], _ => none
  | (k, v) :: rest, key => if k == key then some v else lookupField rest key

/-- Field lookup in a JSON object (model of `serde_json::Value::get` for a
string index; non-objects yield `none`). -/
def jsonGet (data : Json) (key : String) : Option Json :=
  match data with
  | .obj fields => lookupField fields key
  | _ => none

/-- Body of the `(String(s), other) | (other, String(s))` arm of
`values_equal`: the string `s` against the other side's stringified
primitive. -/
def strMatches (s : String) (other : Json) : Bool :=
  match other with
  | .bool bv => s == toString bv
  | .num n => s == toString n
  | .str s2 => s == s2
  | _ => false

/-- Model of `forward_eval.rs`'s `values_equal`: structural equality with
loose string ↔ bool/number coercion. The Rust or-pattern
`(String(s), other) | (other, String(s))` tries its left alternative first,
which is the two-arm match below. -/
def values_equal (a b : Json) : Bool :=
  if a == b then true
  else
    match a, b with
    | .str s, other => strMatches s other
    | other, .str s => strMatches s other
    | _, _ => false

mutual

/-- Model of `forward_eval.rs`'s `resolve_path`. -/
def resolve_path (data : Json) : PropertyPath → Option Json
  | .iri iri =>
    let lcl :=
      match rsplitOnce '#' iri with
      | some (_, name) => name
      | none =>
        match rsplitOnce '/' iri with
        | some (_, name) => name
        | none => iri
    jsonGet data lcl
  | .sequence steps => resolveSeq data steps
  | .inverse _ => none

/-- The `Sequence` loop of `resolve_path`: fold each step, failing on the
first unresolvable one. -/
def resolveSeq (data : Json) : List PropertyPath → Option Json
  | [] => some data
  | step :: rest =>
    match resolve_path data step with
    | some next => resolveSeq next rest
    | none => none

end

/-- Model of `forward_eval.rs`'s `resolve_count`. -/
def resolve_count (data : Json) (path : PropertyPath) : Nat :=
  match resolve_path data path with
  | none => 0
  | some .null => 0
  | some (.arr items) => items.length
  | some _ => 1

mutual

/-- Model of `forward_eval.rs`'s `eval_node`: `true` iff the constraint is
satisfied by `data`. -/
def eval_node (ast : ShaclAst) (data : Json) : Bool :=
  match ast with
  | .and children => evalAll children data
  | .or children => evalAny children data
  | .not child => !eval_node child data
  | .propEquals path value =>
    match resolve_path data path with
    | some v => values_equal v value
    | none => false
  | .propIn path values =>
    match resolve_path data path with
    | some v => values.any (fun allowed => values_equal v allowed)
    | none => false
  | .propCount path min max =>
    let count := resolve_count data path
    let min_ok := match min with | none => true | some m => decide (m ≤ count)
    let max_ok := match max with | none => true | some m => decide (count ≤ m)
    min_ok && max_ok
  | .pathEquals path_a path_b =>
    match resolve_path data path_a, resolve_path data path_b with
    | some a, some b => values_equal a b
    | none, none => true
    | _, _ => false
  | .pathDisjoint path_a path_b =>
    match resolve_path data path_a, resolve_path data path_b with
    | some a, some b => !values_equal a b
    | _, _ => true

def evalAll : List ShaclAst → Json → Bool
  | [], _ => true
  | c :: cs, data => eval_node c data && evalAll cs data

def evalAny : List ShaclAst → Json → Bool
  | [], _ => false
  | c :: cs, data => eval_node c data || evalAny cs data

end

/-- The `if let Some(name) = path.local_name() { fields.push(...) }` step of
`collect_paths`. -/
def pushName (path : PropertyPath) : List String :=
  match path.local_name with
  | some name => [name]
  | none => []

mutual

/-- Model of `forward_eval.rs`'s `collect_paths`: the local names of every
path reference in the AST, in visit order. -/
def collect_paths : ShaclAst → List String
  | .and children => collectPathsList children
  | .or children => collectPathsList children
  | .not child => collect_paths child
  | .propEquals path _ => pushName path
  | .propIn path _ => pushName path
  | .propCount path _ _ => pushName path
  | .pathEquals path_a path_b => pushName path_a ++ pushName path_b
  | .pathDisjoint path_a path_b => pushName path_a ++ pushName path_b

def collectPathsList : List ShaclAst → List String
  | [] => []
  | c :: cs => collect_paths c ++ collectPathsList cs

end

/-- Tail walk of `dedupConsec`: drop elements equal to the previous kept
element, keep the first element of each new run. -/
def dedupConsecAfter (prev : String) : List String → List String
  | [] => []
  | b :: rest => if prev = b then dedupConsecAfter prev rest else b :: dedupConsecAfter b rest

/-- Model of `Vec::dedup`: removes consecutive repeated elements, keeping the
first of each run. -/
def dedupConsec : List String → List String
  | [] => []
  | a :: rest => a :: dedupConsecAfter a rest

/-- Lexicographic comparison of character lists (the order underlying
Rust's `Ord` for `str`). -/
def charsLe : List Char → List Char → Bool
  | [], _ => true
  | _ :: _, [] => false
  | a :: as, b :: bs =>
    if a < b then true
    else if b < a then false
    else charsLe as bs

/-- Model of Rust's total order on strings (lexicographic). -/
def strLe (a b : String) : Bool := charsLe a.data b.data

/-- Model of `Vec::sort` on strings. Sorting a string vector by `Ord` yields
the unique sorted rearrangement, so any comparison sort agrees with it;
insertion sort over `strLe` is used here. -/
def sortStrings (l : List String) : List String :=
  l.insertionSort (fun a b => strLe a b = true)

theorem charsLe_cons_iff (a b : Char) (as bs : List Char) :
    charsLe (a :: as) (b :: bs) = true ↔ (a < b ∨ (a = b ∧ charsLe as bs = true)) := by
  simp only [charsLe]
  rcases lt_trichotomy a b with h | h | h
  · simp [h, not_lt_of_gt h]
  · simp [h, lt_irrefl]
  · simp [h, not_lt_of_gt h, ne_of_gt h]

theorem charsLe_total : ∀ as bs : List Char, charsLe as bs = true ∨ charsLe bs as = true := by
  intro as
  induction as with
  | nil => intro bs; left; rfl
  | cons a atail ih =>
    intro bs
    cases bs with
    | nil => right; rfl
    | cons b btail =>
      rcases lt_trichotomy a b with h | h | h
      · left; rw [charsLe_cons_iff]; exact Or.inl h
      · subst h
        cases ih btail with
        | inl hl => left; rw [charsLe_cons_iff]; exact Or.inr ⟨rfl, hl⟩
        | inr hr => right; rw [charsLe_cons_iff]; exact Or.inr ⟨rfl, hr⟩
      · right; rw [charsLe_cons_iff]; exact Or.inl h

theorem charsLe_trans : ∀ as bs cs : List Char,
    charsLe as bs = true → charsLe bs cs = true → charsLe as cs = true := by
  intro as
  induction as with
  | nil => intro bs cs _ _; rfl
  | cons a atail ih =>
    intro bs cs h1 h2
    cases bs with
    | nil => simp [charsLe] at h1
    | cons b btail =>
      cases cs with
      | nil => simp [charsLe] at h2
      | cons c ctail =>
        rw [charsLe_cons_iff] at h1 h2 ⊢
        rcases h1 with h1 | ⟨he1, hr1⟩
        · rcases h2 with h2 | ⟨he2, hr2⟩
          · exact Or.inl (lt_trans h1 h2)
          · exact Or.inl (he2 ▸ h1)
        · rcases h2 with h2 | ⟨he2, hr2⟩
          · exact Or.inl (by rw [he1]; exact h2)
          · exact Or.inr ⟨he1.trans he2, ih btail ctail hr1 hr2⟩

theorem charsLe_antisymm : ∀ as bs : List Char,
    charsLe as bs = true → charsLe bs as = true → as = bs := by
  intro as
  induction as with
  | nil =>
    intro bs h1 h2
    cases bs with
    | nil => rfl
    | cons b bt => simp [charsLe] at h2
  | cons a atail ih =>
    intro bs h1 h2
    cases bs with
    | nil => simp [charsLe] at h1
    | cons b btail =>
      rw [charsLe_cons_iff] at h1 h2
      rcases h1 with h1 | ⟨he1, hr1⟩
      · rcases h2 with h2 | ⟨he2, hr2⟩
        · exact absurd h2 (not_lt_of_gt h1)
        · exact absurd (he2 ▸ h1) (lt_irrefl a)
      · rcases h2 with h2 | ⟨he2, hr2⟩
        · exact absurd (he1 ▸ h2) (lt_irrefl b)
        · rw [he1, ih btail hr1 hr2]

theorem strLe_total (a b : String) : strLe a b = true ∨ strLe b a = true :=
  charsLe_total a.data b.data

theorem strLe_trans (a b c : String) :
    strLe a b = true → strLe b c = true → strLe a c = true :=
  charsLe_trans a.data b.data c.data

theorem strLe_antisymm (a b : String) :
    strLe a b = true → strLe b a = true → a = b := by
  intro h1 h2
  cases a with
  | mk da =>
    cases b with
    | mk db =>
      have : da = db := charsLe_antisymm da db h1 h2
      rw [this]

instance : IsTotal String (fun a b => strLe a b = true) := ⟨strLe_total⟩

instance : IsTrans String (fun a b => strLe a b = true) :=
  ⟨fun a b c => strLe_trans a b c⟩

/-- Model of `collect_violation_fields`: local names of every path
reference, sorted then consecutively deduplicated. The record argument is
unused by the source (`_data`). -/
def collect_violation_fields (ast : ShaclAst) (_data : Json) : List String :=
  dedupConsec (sortStrings (collect_paths ast))

/-- Model of `evaluate_forward`. -/
def evaluate_forward (ast : ShaclAst) (data : Json) (message : String)
    (enforcement_level : EnforcementLevel) : List Violation :=
  if eval_node ast data then []
  else
    [{ fields := collect_violation_fields ast data
       message := message
       enforcement_level := enforcement_level
       suggested_fix := none }]

-- ── predicate.rs ────────────────────────────────────────────────────────

/-- Logical operators for combining predicates (`LogicalOperator`). -/
inductive LogicalOperator where
  | and
  | or
  deriving DecidableEq, Repr

/-- A filter predicate (`Predicate` in `predicate.rs`). The Rust `Negated`
variant carries a unit-like `NegateOperator::NOT` tag, which only affects
serialization and is omitted here. -/
inductive Predicate where
  | expression (operator : LogicalOperator) (predicates : List Predicate)
  | negated (predicate : Predicate)
  | simple (fieldId : String) (predicateTypeId : String) (value : Option Json)
  deriving Repr

/-- Model of `Predicate::simple`: a simple predicate with a value. -/
def Predicate.simpleVal (field_id op : String) (value : Json) : Predicate :=
  .simple field_id op (some value)

/-- The flattening loop of `Predicate::and`: nested AND expressions
contribute their children, everything else is kept as-is. -/
def flattenAnd : List Predicate → List Predicate
  | [] => []
  | p :: rest =>
    match p with
    | .expression .and children => children ++ flattenAnd rest
    | other => other :: flattenAnd rest

/-- The flattening loop of `Predicate::or`. -/
def flattenOr : List Predicate → List Predicate
  | [] => []
  | p :: rest =>
    match p with
    | .expression .or children => children ++ flattenOr rest
    | other => other :: flattenOr rest

/-- Model of `Predicate::and`: flatten one level of nested ANDs, collapse a
single remaining child to itself. -/
def Predicate.and (predicates : List Predicate) : Predicate :=
  match flattenAnd predicates with
  | [x] => x
  | flat => .expression .and flat

/-- Model of `Predicate::or`. -/
def Predicate.or (predicates : List Predicate) : Predicate :=
  match flattenOr predicates with
  | [x] => x
  | flat => .expression .or flat

/-- Model of `Predicate::not`: always wraps. -/
def Predicate.not (predicate : Predicate) : Predicate :=
  .negated predicate

-- ── backward_solver.rs ──────────────────────────────────────────────────

/-- Kind of a single-field constraint kept for extraction
(`FieldConstraintKind`). The Rust `In` variant is `inVals` here (`in` is a
Lean keyword). -/
inductive FieldConstraintKind where
  | equals (v : Json)
  | inVals (vs : List Json)
  | notEquals (v : Json)
  deriving Repr

/-- Simplified AST with boolean constants for the solver (`Simplified`). -/
inductive Simplified where
  | bool (b : Bool)
  | and (children : List Simplified)
  | or (children : List Simplified)
  | not (child : Simplified)
  | fieldConstraint (field : String) (kind : FieldConstraintKind)
  deriving Repr

/-- Model of `backward_solver.rs`'s `values_equal_json` (verbatim the same
comparison as `forward_eval.rs`'s `values_equal`). -/
def values_equal_json (a b : Json) : Bool :=
  if a == b then true
  else
    match a, b with
    | .str s, other => strMatches s other
    | other, .str s => strMatches s other
    | _, _ => false

mutual

/-- Model of `backward_solver.rs`'s `substitute` (step 1 of the solver). -/
def substitute (ast : ShaclAst) (known : List (String × Json))
    (target_field : String) : Simplified :=
  match ast with
  | .and children => .and (substituteList children known target_field)
  | .or children => .or (substituteList children known target_field)
  | .not child => .not (substitute child known target_field)
  | .propEquals path value =>
    match path.local_name with
    | some field_name =>
      match lookupField known field_name with
      | some known_val => .bool (values_equal_json known_val value)
      | none =>
        if field_name == target_field then
          .fieldConstraint field_name (.equals value)
        else
          .bool true
    | none => .bool true
  | .propIn path values =>
    match path.local_name with
    | some field_name =>
      match lookupField known field_name with
      | some known_val => .bool (values.any (fun v => values_equal_json known_val v))
      | none =>
        if field_name == target_field then
          .fieldConstraint field_name (.inVals values)
        else
          .bool true
    | none => .bool true
  | .propCount path min max =>
    match path.local_name with
    | some field_name =>
      match lookupField known field_name with
      | some known_val =>
        let count : Nat :=
          match known_val with
          | .arr items => items.length
          | .null => 0
          | _ => 1
        let ok :=
          (match min with | none => true | some m => decide (m ≤ count)) &&
          (match max with | none => true | some m => decide (count ≤ m))
        .bool ok
      | none => .bool true
    | none => .bool true
  | .pathEquals _ _ => .bool true
  | .pathDisjoint _ _ => .bool true

def substituteList (children : List ShaclAst) (known : List (String × Json))
    (target_field : String) : List Simplified :=
  match children with
  | [] => []
  | c :: cs => substitute c known target_field :: substituteList cs known target_field

end

/-- Matches `Simplified::Bool(false)`. -/
def Simplified.isBoolFalse : Simplified → Bool
  | .bool false => true
  | _ => false

/-- Matches `Simplified::Bool(true)`. -/
def Simplified.isBoolTrue : Simplified → Bool
  | .bool true => true
  | _ => false

/-- The `Simplified::And` arm of `simplify`, applied to already-simplified
children: short-circuit on a `false` constant, drop `true` constants,
collapse empty/singleton results. -/
def andStep (cs : List Simplified) : Simplified :=
  if cs.any Simplified.isBoolFalse then .bool false
  else
    match cs.filter (fun c => !Simplified.isBoolTrue c) with
    | [] => .bool true
    | [x] => x
    | filtered => .and filtered

/-- The `Simplified::Or` arm of `simplify`, applied to already-simplified
children (dual of `andStep`). -/
def orStep (cs : List Simplified) : Simplified :=
  if cs.any Simplified.isBoolTrue then .bool true
  else
    match cs.filter (fun c => !Simplified.isBoolFalse c) with
    | [] => .bool false
    | [x] => x
    | filtered => .or filtered

mutual

/-- The `Simplified::Not` arm of `simplify`, applied to an
already-simplified child: constant negation, `Equals` ↦ `NotEquals`,
De Morgan pushes through `Or`/`And`, everything else wrapped in `Not`.

The Rust source re-runs `simplify` on terms it has itself just simplified
(`simplify(Simplified::And(negated))` and `simplify(Not(c))` with `c`
taken from a simplify result); those re-runs are identity steps, which is
proved below (`simplify_of_isSimp`, with `negSimp_matches_source` restating
the source's exact recursion shape). This definition performs the same
computation without the identity re-runs, which makes it structurally
terminating. -/
def negSimp : Simplified → Simplified
  | .bool b => .bool (!b)
  | .fieldConstraint field (.equals v) => .fieldConstraint field (.notEquals v)
  | .or children => andStep (negSimpList children)
  | .and children => orStep (negSimpList children)
  | other => .not other

def negSimpList : List Simplified → List Simplified
  | [] => []
  | c :: cs => negSimp c :: negSimpList cs

end

mutual

/-- Model of `backward_solver.rs`'s `simplify` (step 2 of the solver). -/
def simplify : Simplified → Simplified
  | .bool b => .bool b
  | .not inner => negSimp (simplify inner)
  | .and children => andStep (simplifyList children)
  | .or children => orStep (simplifyList children)
  | .fieldConstraint field kind => .fieldConstraint field kind

def simplifyList : List Simplified → List Simplified
  | [] => []
  | c :: cs => simplify c :: simplifyList cs

end

mutual

/-- Model of `backward_solver.rs`'s `extract_predicate` (step 3 of the
solver). -/
def extract_predicate (node : Simplified) (target_field : String) : Option Predicate :=
  match node with
  | .bool true => none
  | .bool false => some (Predicate.simpleVal target_field "in" (.arr []))
  | .fieldConstraint field kind =>
    if field == target_field then
      some (match kind with
        | .equals v => Predicate.simpleVal field "equals" v
        | .inVals values => Predicate.simpleVal field "in" (.arr values)
        | .notEquals v => Predicate.not (Predicate.simpleVal field "equals" v))
    else
      none
  | .not inner =>
    match extract_predicate inner target_field with
    | some inner_pred => some (Predicate.not inner_pred)
    | none => none
  | .and children =>
    match extractList children target_field with
    | [] => none
    | [p] => some p
    | preds => some (Predicate.and preds)
  | .or children =>
    match extractList children target_field with
    | [] => none
    | [p] => some p
    | preds => some (Predicate.or preds)

/-- The `filter_map` over children in `extract_predicate`. -/
def extractList (children : List Simplified) (target_field : String) : List Predicate :=
  match children with
  | [] => []
  | c :: cs =>
    match extract_predicate c target_field with
    | some p => p :: extractList cs target_field
    | none => extractList cs target_field

end

/-- Model of `backward_solver.rs`'s `solve_backward`: substitute, simplify,
extract. -/
def solve_backward (ast : ShaclAst) (known_fields : List (String × Json))
    (target_field : String) : Option Predicate :=
  extract_predicate (simplify (substitute ast known_fields target_field)) target_field

-- ── Simplified-form invariants (supporting the idempotence claim) ──────

/-- Matches `Simplified::Bool(_)`. -/
def Simplified.isBool : Simplified → Bool
  | .bool _ => true
  | _ => false

/-- Heads that `simplify`'s `Not` arm leaves wrapped (its `other` branch):
a nested `Not`, an `In` constraint, or a `NotEquals` constraint. -/
def notHead : Simplified → Bool
  | .not _ => true
  | .fieldConstraint _ (.inVals _) => true
  | .fieldConstraint _ (.notEquals _) => true
  | _ => false

mutual

/-- Characterization of the fixed points of `simplify`: constants and field
constraints; `Not` only over a `notHead`; `And`/`Or` only with at least two
non-constant simplified children. -/
def isSimp : Simplified → Bool
  | .bool _ => true
  | .fieldConstraint _ _ => true
  | .not x => isSimp x && notHead x
  | .and cs => decide (2 ≤ cs.length) && isSimpList cs
  | .or cs => decide (2 ≤ cs.length) && isSimpList cs

def isSimpList : List Simplified → Bool
  | [] => true
  | c :: cs => isSimp c && !Simplified.isBool c && isSimpList cs

end

theorem isBoolFalse_isBool (c : Simplified) :
    Simplified.isBoolFalse c = true → Simplified.isBool c = true := by
  cases c <;> simp [Simplified.isBoolFalse, Simplified.isBool]

theorem isBoolTrue_isBool (c : Simplified) :
    Simplified.isBoolTrue c = true → Simplified.isBool c = true := by
  cases c <;> simp [Simplified.isBoolTrue, Simplified.isBool]

theorem isSimpList_iff (cs : List Simplified) :
    isSimpList cs = true ↔ ∀ c ∈ cs, isSimp c = true ∧ Simplified.isBool c = false := by
  induction cs with
  | nil => simp [isSimpList]
  | cons c rest ih =>
    simp [isSimpList, ih, Bool.and_eq_true, Bool.not_eq_true']

/-- The collapse step shared by `andStep`/`orStep` once constants are gone. -/
def collapseAnd (cs : List Simplified) : Simplified :=
  match cs with
  | [] => .bool true
  | [x] => x
  | _ => .and cs

/-- Dual of `collapseAnd`. -/
def collapseOr (cs : List Simplified) : Simplified :=
  match cs with
  | [] => .bool false
  | [x] => x
  | _ => .or cs

theorem andStep_of_noBool (cs : List Simplified)
    (h : ∀ c ∈ cs, Simplified.isBool c = false) : andStep cs = collapseAnd cs := by
  have hany : cs.any Simplified.isBoolFalse = false := by
    rw [List.any_eq_false]
    intro c hc hb
    exact absurd (isBoolFalse_isBool c hb) (by simp [h c hc])
  have hfil : cs.filter (fun c => !Simplified.isBoolTrue c) = cs := by
    rw [List.filter_eq_self]
    intro c hc
    cases hb : Simplified.isBoolTrue c
    · rfl
    · exact absurd (isBoolTrue_isBool c hb) (by simp [h c hc])
  unfold andStep
  rw [hany, hfil]
  cases cs with
  | nil => rfl
  | cons a rest =>
    cases rest with
    | nil => rfl
    | cons b r2 => rfl

theorem orStep_of_noBool (cs : List Simplified)
    (h : ∀ c ∈ cs, Simplified.isBool c = false) : orStep cs = collapseOr cs := by
  have hany : cs.any Simplified.isBoolTrue = false := by
    rw [List.any_eq_false]
    intro c hc hb
    exact absurd (isBoolTrue_isBool c hb) (by simp [h c hc])
  have hfil : cs.filter (fun c => !Simplified.isBoolFalse c) = cs := by
    rw [List.filter_eq_self]
    intro c hc
    cases hb : Simplified.isBoolFalse c
    · rfl
    · exact absurd (isBoolFalse_isBool c hb) (by simp [h c hc])
  unfold orStep
  rw [hany, hfil]
  cases cs with
  | nil => rfl
  | cons a rest =>
    cases rest with
    | nil => rfl
    | cons b r2 => rfl

theorem andStep_isSimp (cs : List Simplified)
    (h : ∀ c ∈ cs, isSimp c = true) : isSimp (andStep cs) = true := by
  unfold andStep
  cases hany : cs.any Simplified.isBoolFalse
  · have hfil : ∀ c ∈ cs.filter (fun c => !Simplified.isBoolTrue c),
        isSimp c = true ∧ Simplified.isBool c = false := by
      intro c hc
      rw [List.mem_filter] at hc
      refine ⟨h c hc.1, ?_⟩
      cases c with
      | bool b =>
        cases b
        · exact absurd (by simp [List.any_eq_true]; exact ⟨_, hc.1, rfl⟩)
            (by simp [hany] : ¬cs.any Simplified.isBoolFalse = true)
        · exact absurd hc.2 (by simp [Simplified.isBoolTrue])
      | _ => simp [Simplified.isBool]
    simp only [Bool.false_eq_true, if_false]
    revert hfil
    cases hl : cs.filter (fun c => !Simplified.isBoolTrue c) with
    | nil => intro _; simp [isSimp]
    | cons a rest =>
      cases rest with
      | nil => intro hfil; exact (hfil a (by simp)).1
      | cons b rest2 =>
        intro hfil
        simp only [isSimp]
        rw [Bool.and_eq_true, (isSimpList_iff _)]
        constructor
        · simp [List.length_cons]
        · exact hfil
  · simp [isSimp]

theorem orStep_isSimp (cs : List Simplified)
    (h : ∀ c ∈ cs, isSimp c = true) : isSimp (orStep cs) = true := by
  unfold orStep
  cases hany : cs.any Simplified.isBoolTrue
  · have hfil : ∀ c ∈ cs.filter (fun c => !Simplified.isBoolFalse c),
        isSimp c = true ∧ Simplified.isBool c = false := by
      intro c hc
      rw [List.mem_filter] at hc
      refine ⟨h c hc.1, ?_⟩
      cases c with
      | bool b =>
        cases b
        · exact absurd hc.2 (by simp [Simplified.isBoolFalse])
        · exact absurd (by simp [List.any_eq_true]; exact ⟨_, hc.1, rfl⟩)
            (by simp [hany] : ¬cs.any Simplified.isBoolTrue = true)
      | _ => simp [Simplified.isBool]
    simp only [Bool.false_eq_true, if_false]
    revert hfil
    cases hl : cs.filter (fun c => !Simplified.isBoolFalse c) with
    | nil => intro _; simp [isSimp]
    | cons a rest =>
      cases rest with
      | nil => intro hfil; exact (hfil a (by simp)).1
      | cons b rest2 =>
        intro hfil
        simp only [isSimp]
        rw [Bool.and_eq_true, (isSimpList_iff _)]
        constructor
        · simp [List.length_cons]
        · exact hfil
  · simp [isSimp]

theorem negSimpList_length (cs : List Simplified) :
    (negSimpList cs).length = cs.length := by
  induction cs with
  | nil => rfl
  | cons c rest ih => simp [negSimpList, ih]

theorem collapseAnd_isSimp (cs : List Simplified) (hlen : 2 ≤ cs.length)
    (hl : isSimpList cs = true) :
    isSimp (collapseAnd cs) = true ∧ Simplified.isBool (collapseAnd cs) = false := by
  cases cs with
  | nil => simp at hlen
  | cons a rest =>
    cases rest with
    | nil => simp at hlen
    | cons b r2 =>
      refine ⟨?_, rfl⟩
      simp only [collapseAnd, isSimp, Bool.and_eq_true, decide_eq_true_eq]
      exact ⟨by simpa using hlen, hl⟩

theorem collapseOr_isSimp (cs : List Simplified) (hlen : 2 ≤ cs.length)
    (hl : isSimpList cs = true) :
    isSimp (collapseOr cs) = true ∧ Simplified.isBool (collapseOr cs) = false := by
  cases cs with
  | nil => simp at hlen
  | cons a rest =>
    cases rest with
    | nil => simp at hlen
    | cons b r2 =>
      refine ⟨?_, rfl⟩
      simp only [collapseOr, isSimp, Bool.and_eq_true, decide_eq_true_eq]
      exact ⟨by simpa using hlen, hl⟩

mutual

theorem negSimp_isSimp : ∀ x, isSimp x = true →
    isSimp (negSimp x) = true ∧
      (Simplified.isBool x = false → Simplified.isBool (negSimp x) = false)
  | .bool b, _ => by simp [negSimp, isSimp, Simplified.isBool]
  | .fieldConstraint f k, _ => by
      cases k <;> simp [negSimp, isSimp, notHead, Simplified.isBool]
  | .not x, h => by
      simp only [isSimp, Bool.and_eq_true] at h
      refine ⟨?_, fun _ => rfl⟩
      show isSimp (.not (.not x)) = true
      simp only [isSimp, Bool.and_eq_true, notHead]
      exact ⟨⟨h.1, h.2⟩, trivial⟩
  | .and cs, h => by
      simp only [isSimp, Bool.and_eq_true, decide_eq_true_eq] at h
      obtain ⟨hlen, hl⟩ := h
      have hns := negSimpList_isSimpList cs hl
      have hnb : ∀ c ∈ negSimpList cs, Simplified.isBool c = false :=
        fun c hc => ((isSimpList_iff _).mp hns c hc).2
      have hlen2 : 2 ≤ (negSimpList cs).length := by rw [negSimpList_length]; exact hlen
      have hco := collapseOr_isSimp (negSimpList cs) hlen2 hns
      have heq : negSimp (.and cs) = collapseOr (negSimpList cs) := by
        show orStep (negSimpList cs) = _
        exact orStep_of_noBool _ hnb
      rw [heq]
      exact ⟨hco.1, fun _ => hco.2⟩
  | .or cs, h => by
      simp only [isSimp, Bool.and_eq_true, decide_eq_true_eq] at h
      obtain ⟨hlen, hl⟩ := h
      have hns := negSimpList_isSimpList cs hl
      have hnb : ∀ c ∈ negSimpList cs, Simplified.isBool c = false :=
        fun c hc => ((isSimpList_iff _).mp hns c hc).2
      have hlen2 : 2 ≤ (negSimpList cs).length := by rw [negSimpList_length]; exact hlen
      have hco := collapseAnd_isSimp (negSimpList cs) hlen2 hns
      have heq : negSimp (.or cs) = collapseAnd (negSimpList cs) := by
        show andStep (negSimpList cs) = _
        exact andStep_of_noBool _ hnb
      rw [heq]
      exact ⟨hco.1, fun _ => hco.2⟩

theorem negSimpList_isSimpList : ∀ cs, isSimpList cs = true →
    isSimpList (negSimpList cs) = true
  | [], _ => rfl
  | c :: cs, h => by
      simp only [isSimpList, Bool.and_eq_true, Bool.not_eq_true'] at h
      obtain ⟨⟨h1, h2⟩, h3⟩ := h
      have hc := negSimp_isSimp c h1
      simp only [negSimpList, isSimpList, Bool.and_eq_true, Bool.not_eq_true']
      exact ⟨⟨hc.1, hc.2 h2⟩, negSimpList_isSimpList cs h3⟩

end

mutual

theorem simplify_isSimp : ∀ x, isSimp (simplify x) = true
  | .bool b => by simp [simplify, isSimp]
  | .fieldConstraint f k => by simp [simplify, isSimp]
  | .not inner => by
      have h := simplify_isSimp inner
      have h2 := negSimp_isSimp (simplify inner) h
      simpa [simplify] using h2.1
  | .and cs => by
      have h := simplifyList_isSimp cs
      simpa [simplify] using andStep_isSimp _ h
  | .or cs => by
      have h := simplifyList_isSimp cs
      simpa [simplify] using orStep_isSimp _ h

theorem simplifyList_isSimp : ∀ cs, ∀ c ∈ simplifyList cs, isSimp c = true
  | [], c, hc => by simp [simplifyList] at hc
  | x :: xs, c, hc => by
      simp only [simplifyList, List.mem_cons] at hc
      cases hc with
      | inl h => exact h ▸ simplify_isSimp x
      | inr h => exact simplifyList_isSimp xs c h

end

mutual

theorem simplify_of_isSimp : ∀ x, isSimp x = true → simplify x = x
  | .bool b, _ => rfl
  | .fieldConstraint f k, _ => rfl
  | .not x, h => by
      simp only [isSimp, Bool.and_eq_true] at h
      have hx := simplify_of_isSimp x h.1
      simp only [simplify, hx]
      obtain ⟨_, hh⟩ := h
      cases x with
      | not y => rfl
      | fieldConstraint f k =>
        cases k with
        | equals v => simp [notHead] at hh
        | inVals vs => rfl
        | notEquals v => rfl
      | bool b => simp [notHead] at hh
      | and cs => simp [notHead] at hh
      | or cs => simp [notHead] at hh
  | .and cs, h => by
      simp only [isSimp, Bool.and_eq_true, decide_eq_true_eq] at h
      obtain ⟨hlen, hl⟩ := h
      have hls := simplifyList_of_isSimpList cs hl
      simp only [simplify, hls]
      rw [andStep_of_noBool cs (fun c hc => ((isSimpList_iff cs).mp hl c hc).2)]
      cases cs with
      | nil => simp at hlen
      | cons a rest =>
        cases rest with
        | nil => simp at hlen
        | cons b r2 => rfl
  | .or cs, h => by
      simp only [isSimp, Bool.and_eq_true, decide_eq_true_eq] at h
      obtain ⟨hlen, hl⟩ := h
      have hls := simplifyList_of_isSimpList cs hl
      simp only [simplify, hls]
      rw [orStep_of_noBool cs (fun c hc => ((isSimpList_iff cs).mp hl c hc).2)]
      cases cs with
      | nil => simp at hlen
      | cons a rest =>
        cases rest with
        | nil => simp at hlen
        | cons b r2 => rfl

theorem simplifyList_of_isSimpList : ∀ cs, isSimpList cs = true → simplifyList cs = cs
  | [], _ => rfl
  | c :: cs, h => by
      simp only [isSimpList, Bool.and_eq_true] at h
      simp only [simplifyList, simplify_of_isSimp c h.1.1,
        simplifyList_of_isSimpList cs h.2]

end

theorem negSimpList_eq_map (cs : List Simplified) : negSimpList cs = cs.map negSimp := by
  induction cs with
  | nil => rfl
  | cons c rest ih => simp [negSimpList, ih]

/-- Fidelity of `negSimp` to the source's `Not`-over-`Or` De Morgan branch:
when `simplify inner` is an `Or`, the source computes
`simplify(And(children.map(|c| simplify(Not(c)))))`, and this model's
`simplify (.not inner)` equals exactly that. -/
theorem negSimp_matches_source_or (inner : Simplified) (cs : List Simplified)
    (h : simplify inner = .or cs) :
    simplify (.not inner) = simplify (.and (cs.map (fun c => simplify (.not c)))) := by
  have hsi : isSimp (.or cs) = true := h ▸ simplify_isSimp inner
  simp only [isSimp, Bool.and_eq_true, decide_eq_true_eq] at hsi
  obtain ⟨hlen, hl⟩ := hsi
  have hmap : cs.map (fun c => simplify (.not c)) = negSimpList cs := by
    rw [negSimpList_eq_map]
    apply List.map_congr_left
    intro c hc
    have hcs : isSimp c = true := ((isSimpList_iff cs).mp hl c hc).1
    show negSimp (simplify c) = negSimp c
    rw [simplify_of_isSimp c hcs]
  have h1 : simplify (.not inner) = negSimp (.or cs) := by
    show negSimp (simplify inner) = _
    rw [h]
  rw [h1, hmap]
  have h2 : isSimpList (negSimpList cs) = true := negSimpList_isSimpList cs hl
  show negSimp (.or cs) = simplify (.and (negSimpList cs))
  simp only [simplify]
  rw [simplifyList_of_isSimpList _ h2]
  rfl

/-- Fidelity of `negSimp` to the source's `Not`-over-`And` De Morgan branch
(dual of `negSimp_matches_source_or`). -/
theorem negSimp_matches_source_and (inner : Simplified) (cs : List Simplified)
    (h : simplify inner = .and cs) :
    simplify (.not inner) = simplify (.or (cs.map (fun c => simplify (.not c))))  := by
  have hsi : isSimp (.and cs) = true := h ▸ simplify_isSimp inner
  simp only [isSimp, Bool.and_eq_true, decide_eq_true_eq] at hsi
  obtain ⟨hlen, hl⟩ := hsi
  have hmap : cs.map (fun c => simplify (.not c)) = negSimpList cs := by
    rw [negSimpList_eq_map]
    apply List.map_congr_left
    intro c hc
    have hcs : isSimp c = true := ((isSimpList_iff cs).mp hl c hc).1
    show negSimp (simplify c) = negSimp c
    rw [simplify_of_isSimp c hcs]
  have h1 : simplify (.not inner) = negSimp (.and cs) := by
    show negSimp (simplify inner) = _
    rw [h]
  rw [h1, hmap]
  have h2 : isSimpList (negSimpList cs) = true := negSimpList_isSimpList cs hl
  show negSimp (.and cs) = simplify (.or (negSimpList cs))
  simp only [simplify]
  rw [simplifyList_of_isSimpList _ h2]
  rfl

-- ── scope_predicate.rs ──────────────────────────────────────────────────

/-- Model of `str::trim` (strip whitespace at both ends). -/
def strTrim (s : String) : String :=
  ⟨((s.data.dropWhile Char.isWhitespace).reverse.dropWhile Char.isWhitespace).reverse⟩

/-- Model of `str::trim_end_matches` for a single-character pattern: strip
every trailing occurrence of `c`. -/
def trimEndMatchesChar (c : Char) (s : String) : String :=
  ⟨(s.data.reverse.dropWhile (· = c)).reverse⟩

/-- Accumulator loop for `splitWhitespace`. -/
def splitWsAux : List Char → List Char → List (List Char)
  | [], acc => if acc.isEmpty then [] else [acc.reverse]
  | ch :: rest, acc =>
    if ch.isWhitespace then
      if acc.isEmpty then splitWsAux rest [] else acc.reverse :: splitWsAux rest []
    else
      splitWsAux rest (ch :: acc)

/-- Model of `str::split_whitespace`: maximal non-whitespace runs. -/
def splitWhitespace (s : String) : List String :=
  (splitWsAux s.data []).map (fun l => ⟨l⟩)

/-- Split a character list at every occurrence of `c` (no occurrence of `c`
gives a single piece). -/
def splitOnChar (c : Char) : List Char → List (List Char)
  | [] => [[]]
  | a :: rest =>
    if a = c then
      [] :: splitOnChar c rest
    else
      match splitOnChar c rest with
      | [] => [[a]]
      | l :: ls => (a :: l) :: ls

/-- Model of `str::lines`: split at `'\n'`, one trailing line terminator
tolerated. (`'\r'` handling is not modelled; no text in scope carries one.) -/
def linesOf (s : String) : List String :=
  if s.data.isEmpty then []
  else
    let body := match s.data.getLast? with
      | some c => if c = '\n' then s.data.dropLast else s.data
      | none => s.data
    (splitOnChar '\n' body).map (fun l => ⟨l⟩)

/-- Model of `str::starts_with` for a character pattern. -/
def startsWithChar (s : String) (c : Char) : Bool :=
  match s.data with
  | [] => false
  | a :: _ => a == c

/-- Model of `str::starts_with` for a string pattern. -/
def startsWithStr (s pat : String) : Bool :=
  pat.data.isPrefixOf s.data

/-- Model of `scope_predicate.rs`'s `iri_local_name`: substring after the
last `#`, `/` or `:`, or the whole string. -/
def iri_local_name (iri : String) : String :=
  match rsplitOnce '#' iri with
  | some (_, name) => name
  | none =>
    match rsplitOnce '/' iri with
    | some (_, name) => name
    | none =>
      match rsplitOnce ':' iri with
      | some (_, name) => name
      | none => iri

/-- One line of the scanner in `extract_shared_attribute_joins`: trim, strip
trailing `;` then `.`, split on whitespace, and keep the first three parts
as a subject / predicate / object triple. -/
def lineTriple (line : String) : Option (String × String × String) :=
  match splitWhitespace (trimEndMatchesChar '.' (trimEndMatchesChar ';' (strTrim line))) with
  | subject :: predicate :: object :: _ => some (subject, predicate, object)
  | _ => none

/-- Model of `extract_shared_attribute_joins`: collect `$this`-bound and
`?var`-bound (predicate-local-name, object-variable) pairs, keep the
predicate names bound in both families to the same object variable, then
sort and dedup. -/
def extract_shared_attribute_joins (sparql : String) : List String :=
  let step := fun (acc : List (String × String) × List (String × String)) (line : String) =>
    match lineTriple line with
    | some (subject, predicate, object) =>
      if startsWithChar object '?' && !startsWithStr predicate "FILTER"
          && !startsWithStr predicate "BIND" then
        let pred_local := iri_local_name predicate
        if subject == "$this" then
          (acc.1 ++ [(pred_local, object)], acc.2)
        else if startsWithChar subject '?' then
          (acc.1, acc.2 ++ [(pred_local, object)])
        else
          acc
      else
        acc
    | none => acc
  let bindings := (linesOf sparql).foldl step ([], [])
  let shared := bindings.1.foldl
    (fun acc pv =>
      acc ++ (bindings.2.filter (fun ov => pv.1 == ov.1 && pv.2 == ov.2)).map
        (fun _ => pv.1))
    []
  dedupConsec (sortStrings shared)

/-- The `for attr in &shared_attrs { focus_data.get(attr)? ... }` loop of
`derive_scope_from_sparql`: an equality predicate per shared attribute,
failing if any attribute is missing from the focus data. -/
def attrPreds : List String → List (String × Json) → Option (List Predicate)
  | [], _ => some []
  | attr :: rest, focus =>
    match lookupField focus attr with
    | none => none
    | some value =>
      match attrPreds rest focus with
      | none => none
      | some ps => some (Predicate.simpleVal attr "equals" value :: ps)

/-- Model of `derive_scope_from_sparql`. -/
def derive_scope_from_sparql (sparql : String) (focus_data : List (String × Json))
    (uri_field : String) : Option Predicate :=
  let shared_attrs := extract_shared_attribute_joins sparql
  if shared_attrs.isEmpty then none
  else
    match lookupField focus_data uri_field with
    | none => none
    | some focus_uri =>
      match attrPreds shared_attrs focus_data with
      | none => none
      | some preds =>
        some (Predicate.and
          (preds ++ [Predicate.not (Predicate.simpleVal uri_field "equals" focus_uri)]))

/-- Model of `derive_scope_from_ast`: the source currently always returns
`None` (no cross-object AST shapes exist yet). -/
def derive_scope_from_ast (_ast : ShaclAst) (_focus_data : List (String × Json))
    (_uri_field : String) : Option Predicate :=
  none

/-- Model of `derive_scope_predicate`: raw query present → SPARQL-based
derivation, else AST-based, else none. -/
def derive_scope_predicate (shape : ShapeResult) (focus_data : List (String × Json))
    (uri_field : String) : Option Predicate :=
  match shape.sparql with
  | some sparql => derive_scope_from_sparql sparql focus_data uri_field
  | none =>
    match shape.ast with
    | some ast => derive_scope_from_ast ast focus_data uri_field
    | none => none

-- ── constraint_set.rs ───────────────────────────────────────────────────

/-- Abstraction of a `linkml_schemaview` slot as `ConstraintSet::solve`
consumes it: a name, `get_range_enum` (outer option) and
`permissible_value_keys` (inner option standing for its `Ok` case). The
schema registry itself is an external collaborator of this crate. -/
structure SlotView where
  name : String
  range_enum_keys : Option (Option (List String))

/-- Abstraction of a resolved `ClassView`: its slot list. -/
structure ClassView where
  slots : List SlotView

/-- Describes the allowed values for a target field after backward solving
(`FieldConstraint` in `constraint_set.rs`). -/
inductive FieldConstraint where
  | allowedValues (values : List String)
  | query (predicate : Predicate)
  deriving Repr

/-- Model of `ConstraintSet`: the shapes plus the optional schema view and
resolved target class. -/
structure ConstraintSet where
  shapes : List ShapeResult
  schema_view : Option Unit
  target_class : Option ClassView

/-- Model of `values_equal_json_str`: a string candidate against a JSON
value (string, stringified bool, or stringified number). -/
def values_equal_json_str (candidate : String) (value : Json) : Bool :=
  match value with
  | .str s => candidate == s
  | .bool b => candidate == toString b
  | .num n => candidate == toString n
  | _ => false

mutual

/-- Model of `evaluate_predicate_for_value`: whether a candidate string
value for `target_field` satisfies a predicate (predicates on other fields
and unknown operators are permissive). -/
def evaluate_predicate_for_value (pred : Predicate) (target_field candidate : String) :
    Bool :=
  match pred with
  | .simple field_id predicate_type_id value =>
    if field_id != target_field then true
    else if predicate_type_id == "equals" then
      match value with
      | some v => values_equal_json_str candidate v
      | none => false
    else if predicate_type_id == "notEquals" then
      match value with
      | some v => !values_equal_json_str candidate v
      | none => true
    else if predicate_type_id == "in" then
      match value with
      | some (.arr items) => items.any (fun v => values_equal_json_str candidate v)
      | _ => true
    else
      true
  | .negated p => !evaluate_predicate_for_value p target_field candidate
  | .expression .and ps => evalPredAll ps target_field candidate
  | .expression .or ps => evalPredAny ps target_field candidate

def evalPredAll : List Predicate → String → String → Bool
  | [], _, _ => true
  | p :: ps, target_field, candidate =>
    evaluate_predicate_for_value p target_field candidate
      && evalPredAll ps target_field candidate

def evalPredAny : List Predicate → String → String → Bool
  | [], _, _ => false
  | p :: ps, target_field, candidate =>
    evaluate_predicate_for_value p target_field candidate
      || evalPredAny ps target_field candidate

end

/-- Model of `ConstraintSet::evaluate`: concatenated forward-evaluation
results of every AST rule, in order. -/
def ConstraintSet.evaluate (cs : ConstraintSet) (object_data : Json) : List Violation :=
  cs.shapes.foldl
    (fun acc shape =>
      match shape.ast with
      | some ast =>
        acc ++ evaluate_forward ast object_data shape.message shape.enforcement_level
      | none => acc)
    []

/-- Model of `serde_json::Map::remove` as `solve` uses it: drop the binding
for `key`. -/
def removeField (fields : List (String × Json)) (key : String) : List (String × Json) :=
  fields.filter (fun kv => kv.1 != key)

/-- The predicate-collection loop of `ConstraintSet::solve`. -/
def collectSolvePreds (shapes : List ShapeResult) (known : List (String × Json))
    (target_field : String) : List Predicate :=
  shapes.foldl
    (fun acc shape =>
      match shape.ast with
      | some ast =>
        match solve_backward ast known target_field with
        | some pred => acc ++ [pred]
        | none => acc
      | none => acc)
    []

/-- The slot-scanning loop of `ConstraintSet::solve`: find the slot named
`target_field`; if it has an enum range with resolvable keys, filter the
permissible values through the combined predicate; in every other case
(`break` or loop exhaustion) fall through to the `Query` result (`none`
here). -/
def findSlotRefine (slots : List SlotView) (target_field : String)
    (combined : Predicate) : Option FieldConstraint :=
  match slots with
  | [] => none
  | slot :: rest =>
    if slot.name == target_field then
      match slot.range_enum_keys with
      | some (some keys) =>
        some (.allowedValues
          (keys.filter (fun candidate =>
            evaluate_predicate_for_value combined target_field candidate)))
      | _ => none
    else
      findSlotRefine rest target_field combined

/-- Model of `ConstraintSet::solve`. -/
def ConstraintSet.solve (cs : ConstraintSet) (object_data : Json)
    (target_field : String) : Option FieldConstraint :=
  match object_data with
  | .obj objFields =>
    let known := removeField objFields target_field
    let predicates := collectSolvePreds cs.shapes known target_field
    if predicates.isEmpty then none
    else
      let combined :=
        match predicates with
        | [single] => single
        | ps => Predicate.and ps
      match cs.schema_view, cs.target_class with
      | some _, some class_view =>
        match findSlotRefine class_view.slots target_field combined with
        | some fc => some fc
        | none => some (.query combined)
      | _, _ => some (.query combined)
  | _ => none

-- ── shacl_parser.rs ─────────────────────────────────────────────────────

/-- Model of an `oxrdf::Term`: named node, blank node, or literal with an
optional language tag (datatypes play no role in the parsed logic). -/
inductive Term where
  | namedNode (iri : String)
  | blankNode (id : String)
  | literal (value : String) (language : Option String)
  deriving Repr

/-- The `http://www.w3.org/ns/shacl#` namespace constant `SH`. -/
def SH : String := "http://www.w3.org/ns/shacl#"

/-- `RDF_TYPE`. -/
def RDF_TYPE : String := "http://www.w3.org/1999/02/22-rdf-syntax-ns#type"

/-- `RDF_FIRST`. -/
def RDF_FIRST : String := "http://www.w3.org/1999/02/22-rdf-syntax-ns#first"

/-- `RDF_REST`. -/
def RDF_REST : String := "http://www.w3.org/1999/02/22-rdf-syntax-ns#rest"

/-- `RDF_NIL`. -/
def RDF_NIL : String := "http://www.w3.org/1999/02/22-rdf-syntax-ns#nil"

/-- The `https://data.infrabel.be/asset360/` namespace constant `ASSET360`. -/
def ASSET360 : String := "https://data.infrabel.be/asset360/"

/-- Model of the `sh(local)` IRI builder. -/
def sh (lcl : String) : String := SH ++ lcl

/-- Model of the `a360(local)` IRI builder. -/
def a360 (lcl : String) : String := ASSET360 ++ lcl

/-- Model of `ParseError` in `shacl_parser.rs`. -/
inductive ParseError where
  | turtle (msg : String)
  | unsupportedConstruct (msg : String)
  | missingField (msg : String)
  deriving Repr

/-- Model of `ParseError`'s `Display`: the rendered error message. -/
def ParseError.display : ParseError → String
  | .turtle e => "Turtle parse error: " ++ e
  | .unsupportedConstruct msg => "Unsupported SHACL construct: " ++ msg
  | .missingField msg => "Missing required field: " ++ msg

/-- Model of `term_key`. -/
def term_key : Term → String
  | .namedNode n => n
  | .blankNode b => "_:" ++ b
  | .literal v _ => v

/-- Model of `term_str`. -/
def term_str : Term → Option String
  | .namedNode n => some n
  | .literal v _ => some v
  | _ => none

/-- Model of `shacl_parser.rs`'s `iri_local_name`: substring after the last
`#` or `/`, or the whole string (unlike the scope deriver's helper, no `:`
fallback). -/
def local_name_of_iri (iri : String) : String :=
  match rsplitOnce '#' iri with
  | some (_, name) => name
  | none =>
    match rsplitOnce '/' iri with
    | some (_, name) => name
    | none => iri

/-- Generic association-list lookup (model of `HashMap::get`). -/
def assocLookup {α : Type} : List (String × α) → String → Option α
  | [], _ => none
  | (k, v) :: rest, key => if k == key then some v else assocLookup rest key

/-- Model of the parser's in-memory `TripleStore`: all triples indexed by
subject string, as a deterministic association list (the source's `HashMap`
iteration order is unspecified; no claim depends on result order across
distinct subjects). -/
structure TripleStore where
  by_subject : List (String × List (String × Term))

/-- Model of `TripleStore::objects`. -/
def TripleStore.objects (store : TripleStore) (subject predicate : String) : List Term :=
  match assocLookup store.by_subject subject with
  | some pairs => (pairs.filter (fun p => p.1 == predicate)).map (fun p => p.2)
  | none => []

/-- Model of `TripleStore::first_object`. -/
def TripleStore.first_object (store : TripleStore) (subject predicate : String) :
    Option Term :=
  (store.objects subject predicate).head?

/-- Model of `TripleStore::first_str`. -/
def TripleStore.first_str (store : TripleStore) (subject predicate : String) :
    Option String :=
  (store.first_object subject predicate).bind term_str

/-- Model of `TripleStore::first_literal`. -/
def TripleStore.first_literal (store : TripleStore) (subject predicate : String) :
    Option String :=
  match store.first_object subject predicate with
  | some (.literal v _) => some v
  | _ => none

/-- Model of `TripleStore::literal_for_language`: exact language match,
then untagged literal, then first available. -/
def TripleStore.literal_for_language (store : TripleStore)
    (subject predicate language : String) : Option String :=
  let literals := (store.objects subject predicate).filterMap
    (fun t => match t with | .literal v lang => some (v, lang) | _ => none)
  match literals with
  | [] => none
  | first :: _ =>
    match literals.find? (fun l => l.2 == some language) with
    | some l => some l.1
    | none =>
      match literals.find? (fun l => l.2 == none) with
      | some l => some l.1
      | none => some first.1

/-- Model of `TripleStore::list_predicates`: sorted, deduplicated local
names of the predicates on a subject. -/
def TripleStore.list_predicates (store : TripleStore) (subject : String) : List String :=
  match assocLookup store.by_subject subject with
  | some pairs =>
    dedupConsec (sortStrings (pairs.map (fun p => local_name_of_iri p.1)))
  | none => []

/-- Model of `TripleStore::collect_rdf_list` (an `rdf:first`/`rdf:rest`
chain). The source's unbounded loop diverges on cyclic stores; a fuel
argument makes the model total, and every concrete input below is given
ample fuel. -/
def TripleStore.collect_rdf_list (store : TripleStore) : Nat → Term → List Term
  | 0, _ => []
  | fuel + 1, current =>
    let key := term_key current
    if key == RDF_NIL then []
    else
      match store.first_object key RDF_FIRST with
      | none => []
      | some first =>
        match store.first_object key RDF_REST with
        | none => [first]
        | some rest => first :: store.collect_rdf_list fuel rest

/-- Digit-string evaluation for the integer parsers. -/
def digitsVal : List Char → Nat → Option Nat
  | [], acc => some acc
  | c :: rest, acc =>
    if c.isDigit then digitsVal rest (acc * 10 + (c.toNat - 48)) else none

/-- Model of `str::parse::<i64>`: optional sign, at least one digit, and the
value within the i64 range. -/
def parseI64 (s : String) : Option Int :=
  let core := fun (neg : Bool) (cs : List Char) =>
    match cs with
    | [] => none
    | _ =>
      match digitsVal cs 0 with
      | none => none
      | some n =>
        let v : Int := if neg then -(n : Int) else (n : Int)
        if -(2 ^ 63) ≤ v ∧ v ≤ 2 ^ 63 - 1 then some v else none
  match s.data with
  | '+' :: rest => core false rest
  | '-' :: rest => core true rest
  | cs => core false cs

/-- Model of `str::parse::<u32>` (as used for `sh:minCount`/`sh:maxCount`):
optional `+`, digits, value below `2^32`. -/
def parseU32 (s : String) : Option Nat :=
  let core := fun (cs : List Char) =>
    match cs with
    | [] => none
    | _ =>
      match digitsVal cs 0 with
      | none => none
      | some n => if n < 2 ^ 32 then some n else none
  match s.data with
  | '+' :: rest => core rest
  | cs => core cs

/-- Model of `term_to_json_value`. The source additionally tries
`str::parse::<f64>` between the integer and boolean attempts; that branch
matters only for non-integral numeric literals, which the integer-valued
JSON model does not represent and which no claim exercises. -/
def term_to_json_value : Term → Json
  | .literal v _ =>
    match parseI64 v with
    | some n => .num n
    | none =>
      if v == "true" then .bool true
      else if v == "false" then .bool false
      else .str v
  | .namedNode n => .str n
  | .blankNode b => .str ("_:" ++ b)

/-- Model of `parse_path` (fuel-totalized; the source recurses unboundedly
through the store, diverging on cyclic path structures, and every concrete
input below receives ample fuel). -/
def parse_path (store : TripleStore) (fuel : Nat) : Term → Except ParseError PropertyPath :=
  match fuel with
  | 0 => fun t =>
    match t with
    | .namedNode n => .ok (.iri n)
    | _ => .error (.missingField "recursion fuel exhausted")
  | fuel + 1 => fun t =>
    match t with
    | .namedNode n => .ok (.iri n)
    | .blankNode b =>
      let key := "_:" ++ b
      match store.first_object key (sh "inversePath") with
      | some inner =>
        match parse_path store fuel inner with
        | .ok inner_path => .ok (.inverse inner_path)
        | .error e => .error e
      | none =>
        let items := store.collect_rdf_list (fuel + 1) (.blankNode b)
        if !items.isEmpty then
          match items.mapM (fun item => parse_path store fuel item) with
          | .ok steps => .ok (.sequence steps)
          | .error e => .error e
        else
          .error (.unsupportedConstruct
            ("Unsupported property path at blank node " ++ key
              ++ ".\nFound predicates: ["
              ++ String.intercalate ", " (store.list_predicates key)
              ++ "].\nSupported paths: simple IRI, sequence (RDF list), sh:inversePath."
              ++ "\nHint: sh:alternativePath, sh:zeroOrMorePath etc. are not supported."))
    | .literal _ _ =>
      .error (.unsupportedConstruct
        ("Unexpected term in path position: literal.\nPaths must be IRIs"
          ++ " (e.g. asset360:fieldName) or structured (sh:inversePath, sequence)."))

/-- Model of `parse_property_shape`. -/
def parse_property_shape (store : TripleStore) (fuel : Nat) (key : String) :
    Except ParseError ShaclAst :=
  match store.first_object key (sh "path") with
  | none => .error (.missingField ("sh:path missing on property shape " ++ key))
  | some path_term =>
    match parse_path store fuel path_term with
    | .error e => .error e
    | .ok path =>
      match store.first_object key (sh "hasValue") with
      | some val_term => .ok (.propEquals path (term_to_json_value val_term))
      | none =>
        match store.first_object key (sh "in") with
        | some list_head =>
          .ok (.propIn path ((store.collect_rdf_list fuel list_head).map term_to_json_value))
        | none =>
          let min_count := (store.first_literal key (sh "minCount")).bind parseU32
          let max_count := (store.first_literal key (sh "maxCount")).bind parseU32
          if min_count.isSome || max_count.isSome then
            .ok (.propCount path min_count max_count)
          else
            match store.first_object key (sh "equals") with
            | some other_path_term =>
              match parse_path store fuel other_path_term with
              | .ok other_path => .ok (.pathEquals path other_path)
              | .error e => .error e
            | none =>
              match store.first_object key (sh "disjoint") with
              | some other_path_term =>
                match parse_path store fuel other_path_term with
                | .ok other_path => .ok (.pathDisjoint path other_path)
                | .error e => .error e
              | none =>
                let path_name := path.local_name.getD "(complex path)"
                .error (.unsupportedConstruct
                  ("Unsupported value constraint on property \"" ++ path_name
                    ++ "\" (node " ++ key ++ ").\nFound predicates: ["
                    ++ String.intercalate ", " (store.list_predicates key)
                    ++ "].\nSupported property constraints: sh:hasValue, sh:in,"
                    ++ " sh:minCount, sh:maxCount, sh:equals, sh:disjoint."
                    ++ "\nCommon unsupported: sh:pattern, sh:class, sh:nodeKind,"
                    ++ " sh:datatype, sh:minInclusive/maxInclusive,"
                    ++ " sh:minLength/maxLength."
                    ++ "\nHint: Set `asset360:introspectable false` and use"
                    ++ " `sh:sparql` for this constraint."))

/-- Model of `parse_constraint_node` (fuel-totalized like `parse_path`). -/
def parse_constraint_node (store : TripleStore) (fuel : Nat) :
    String → Except ParseError ShaclAst :=
  match fuel with
  | 0 => fun _ => .error (.missingField "recursion fuel exhausted")
  | fuel + 1 => fun key =>
    match store.first_object key (sh "not") with
    | some inner =>
      match parse_constraint_node store fuel (term_key inner) with
      | .ok child => .ok (.not child)
      | .error e => .error e
    | none =>
      match store.first_object key (sh "and") with
      | some list_head =>
        match (store.collect_rdf_list (fuel + 1) list_head).mapM
            (fun item => parse_constraint_node store fuel (term_key item)) with
        | .ok children => .ok (.and children)
        | .error e => .error e
      | none =>
        match store.first_object key (sh "or") with
        | some list_head =>
          match (store.collect_rdf_list (fuel + 1) list_head).mapM
              (fun item => parse_constraint_node store fuel (term_key item)) with
          | .ok children => .ok (.or children)
          | .error e => .error e
        | none =>
          match store.first_object key (sh "property") with
          | some prop_node => parse_property_shape store (fuel + 1) (term_key prop_node)
          | none =>
            if (store.first_object key (sh "path")).isSome then
              parse_property_shape store (fuel + 1) key
            else
              .error (.unsupportedConstruct
                ("Unsupported SHACL construct on node " ++ key
                  ++ ".\nFound predicates: ["
                  ++ String.intercalate ", " (store.list_predicates key)
                  ++ "].\nSupported: sh:not, sh:and, sh:or, sh:property"
                  ++ " (with sh:path + value constraint)."
                  ++ "\nHint: Set `asset360:introspectable false` and use"
                  ++ " `sh:sparql` instead."))

/-- Error-propagating map (the `collect::<Result<Vec<_>,_>>()` idiom). -/
def mapExcept {α β : Type} (f : α → Except ParseError β) :
    List α → Except ParseError (List β)
  | [] => .ok []
  | x :: xs =>
    match f x with
    | .ok y =>
      match mapExcept f xs with
      | .ok ys => .ok (y :: ys)
      | .error e => .error e
    | .error e => .error e

/-- Model of `parse_shape_ast`: gather the constraint components attached
directly to the shape node, in source order. -/
def parse_shape_ast (store : TripleStore) (fuel : Nat) (shape_key : String) :
    Except ParseError ShaclAst :=
  match mapExcept (fun obj =>
      match parse_constraint_node store fuel (term_key obj) with
      | .ok inner => .ok (ShaclAst.not inner)
      | .error e => .error e) (store.objects shape_key (sh "not")) with
  | .error e => .error e
  | .ok nots =>
  match mapExcept (fun obj =>
      match (store.collect_rdf_list fuel obj).mapM
          (fun item => parse_constraint_node store fuel (term_key item)) with
      | .ok children => .ok (ShaclAst.and children)
      | .error e => .error e) (store.objects shape_key (sh "and")) with
  | .error e => .error e
  | .ok ands =>
  match mapExcept (fun obj =>
      match (store.collect_rdf_list fuel obj).mapM
          (fun item => parse_constraint_node store fuel (term_key item)) with
      | .ok children => .ok (ShaclAst.or children)
      | .error e => .error e) (store.objects shape_key (sh "or")) with
  | .error e => .error e
  | .ok ors =>
  match mapExcept (fun obj => parse_property_shape store fuel (term_key obj))
      (store.objects shape_key (sh "property")) with
  | .error e => .error e
  | .ok props =>
  let pairEqE : Except ParseError (List ShaclAst) :=
    match store.first_object shape_key (sh "path"),
        store.first_object shape_key (sh "equals") with
    | some path_a_term, some path_b_term =>
      match parse_path store fuel path_a_term, parse_path store fuel path_b_term with
      | .ok a, .ok b => .ok [ShaclAst.pathEquals a b]
      | .error e, _ => .error e
      | _, .error e => .error e
    | _, _ => .ok []
  match pairEqE with
  | .error e => .error e
  | .ok pairEq =>
  let pairDisjE : Except ParseError (List ShaclAst) :=
    match store.first_object shape_key (sh "path"),
        store.first_object shape_key (sh "disjoint") with
    | some path_a_term, some path_b_term =>
      match parse_path store fuel path_a_term, parse_path store fuel path_b_term with
      | .ok a, .ok b => .ok [ShaclAst.pathDisjoint a b]
      | .error e, _ => .error e
      | _, .error e => .error e
    | _, _ => .ok []
  match pairDisjE with
  | .error e => .error e
  | .ok pairDisj =>
  match nots ++ ands ++ ors ++ props ++ pairEq ++ pairDisj with
  | [] => .error (.missingField ("no constraint components found on shape " ++ shape_key))
  | [single] => .ok single
  | constraints => .ok (.and constraints)

/-- Split a character list at the first occurrence of the pattern,
returning the part before it and the part after it (model of the
`str::find`-then-slice idiom). -/
def splitFirstSub (pat : List Char) : List Char → Option (List Char × List Char)
  | [] => if pat.isEmpty then some ([], []) else none
  | a :: rest =>
    if pat.isPrefixOf (a :: rest) then some ([], (a :: rest).drop pat.length)
    else
      match splitFirstSub pat rest with
      | some (pre, post) => some (a :: pre, post)
      | none => none

/-- Model of `str::contains` for string patterns. -/
def strContains (hay needle : String) : Bool :=
  (splitFirstSub needle.data hay.data).isSome

/-- Model of `extract_bind_fields_from_sparql`: local names bound by
`BIND(<iri> AS ?var)` patterns, sorted and deduplicated. -/
def extract_bind_fields_from_sparql (sparql : String) : List String :=
  let fields := (linesOf sparql).foldl
    (fun acc line =>
      let trimmed := strTrim line
      match splitFirstSub "BIND(".data trimmed.data with
      | some (_, rest) =>
        match splitFirstSub " AS".data rest with
        | some (pre, _) => acc ++ [iri_local_name (strTrim ⟨pre⟩)]
        | none => acc
      | none => acc)
    []
  dedupConsec (sortStrings fields)

/-- Model of `collect_affected_fields` in `shacl_parser.rs` (its
`collect_fields_recursive` walker is line-for-line the same as
`forward_eval.rs`'s `collect_paths`, reused here). -/
def collect_affected_fields (ast : ShaclAst) : List String :=
  dedupConsec (sortStrings (collect_paths ast))

/-- The enforcement-level lexicon of `parse_shacl` (unrecognized values fall
back to `EnforcementLevel::default()`, which is `Serious`). -/
def parseEnforcement (s : String) : EnforcementLevel :=
  if s == "critical" then .critical
  else if s == "serious" then .serious
  else if s == "error" then .error
  else if s == "unlikely" then .unlikely
  else .serious

/-- One iteration of `parse_shacl`'s subject loop: `none` when the subject
is skipped (not a node shape, or filtered out by target class). -/
def processShapeSubject (store : TripleStore) (fuel : Nat)
    (target_class language : String) (subj : String) (pairs : List (String × Term)) :
    Except ParseError (Option ShapeResult) :=
  let is_node_shape := pairs.any (fun p => p.1 == RDF_TYPE && term_key p.2 == sh "NodeShape")
  if !is_node_shape then .ok none
  else
    let shape_target := store.first_str subj (sh "targetClass")
    let skip :=
      if target_class == "" then false
      else
        match shape_target with
        | some tc => local_name_of_iri tc != target_class && tc != target_class
        | none => true
    if skip then .ok none
    else
      let target_class_name :=
        match shape_target with
        | some tc => local_name_of_iri tc
        | none => ""
      let enforcement_str := (store.first_literal subj (a360 "enforcementLevel")).getD "serious"
      let enforcement_level := parseEnforcement enforcement_str
      let introspectable_ann :=
        match store.first_literal subj (a360 "introspectable") with
        | some s => s == "true"
        | none => true
      let message := (store.literal_for_language subj (sh "message") language).getD ""
      match store.first_object subj (sh "sparql") with
      | some sparql_term =>
        let sparql_key := term_key sparql_term
        let select := (store.first_literal sparql_key (sh "select")).getD ""
        let sparql_message :=
          (store.literal_for_language sparql_key (sh "message") language).getD message
        .ok (some
          { shape_uri := subj
            target_class := target_class_name
            enforcement_level := enforcement_level
            message := sparql_message
            affected_fields := extract_bind_fields_from_sparql select
            introspectable := false
            ast := none
            sparql := some select })
      | none =>
        match parse_shape_ast store fuel subj with
        | .ok ast =>
          .ok (some
            { shape_uri := subj
              target_class := target_class_name
              enforcement_level := enforcement_level
              message := message
              affected_fields := collect_affected_fields ast
              introspectable := introspectable_ann
              ast := some ast
              sparql := none })
        | .error e =>
          if introspectable_ann then .error e
          else
            .ok (some
              { shape_uri := subj
                target_class := target_class_name
                enforcement_level := enforcement_level
                message := message
                affected_fields := []
                introspectable := false
                ast := none
                sparql := none })

/-- The subject loop of `parse_shacl` over the (deterministically ordered)
subject index. -/
def parseShaclLoop (store : TripleStore) (fuel : Nat) (target_class language : String) :
    List (String × List (String × Term)) → Except ParseError (List ShapeResult)
  | [] => .ok []
  | (subj, pairs) :: rest =>
    match processShapeSubject store fuel target_class language subj pairs with
    | .error e => .error e
    | .ok r =>
      match parseShaclLoop store fuel target_class language rest with
      | .error e => .error e
      | .ok rs =>
        match r with
        | some shape => .ok (shape :: rs)
        | none => .ok rs

/-- Model of `parse_shacl` from the already-built triple store onward (the
third-party Turtle tokenizer that builds the store is external to this
crate). -/
def parse_shacl (store : TripleStore) (fuel : Nat) (target_class language : String) :
    Except ParseError (List ShapeResult) :=
  parseShaclLoop store fuel target_class language store.by_subject

-- ── Sorting/dedup facts for violation-field collection ─────────────────

theorem dedupConsecAfter_sublist :
    ∀ (l : List String) (prev : String), List.Sublist (dedupConsecAfter prev l) l := by
  intro l
  induction l with
  | nil => intro prev; simp [dedupConsecAfter]
  | cons b rest ih =>
    intro prev
    rw [dedupConsecAfter]
    by_cases h : prev = b
    · rw [if_pos h]
      exact (ih prev).trans (List.sublist_cons_self b rest)
    · rw [if_neg h]
      exact (ih b).cons_cons b

theorem dedupConsec_sublist : ∀ l : List String, List.Sublist (dedupConsec l) l := by
  intro l
  cases l with
  | nil => simp [dedupConsec]
  | cons a rest =>
    rw [dedupConsec]
    exact (dedupConsecAfter_sublist rest a).cons_cons a

theorem mem_dedupConsecAfter :
    ∀ (l : List String) (prev x : String), x ∈ l → x = prev ∨ x ∈ dedupConsecAfter prev l := by
  intro l
  induction l with
  | nil => intro prev x hx; simp at hx
  | cons b rest ih =>
    intro prev x hx
    rw [dedupConsecAfter]
    by_cases h : prev = b
    · rw [if_pos h]
      cases List.mem_cons.mp hx with
      | inl he => exact Or.inl (he.trans h.symm)
      | inr he => exact ih prev x he
    · rw [if_neg h]
      cases List.mem_cons.mp hx with
      | inl he => exact Or.inr (by simp [he])
      | inr he =>
        cases ih b x he with
        | inl hb => exact Or.inr (by simp [hb])
        | inr hm => exact Or.inr (List.mem_cons_of_mem _ hm)

theorem mem_dedupConsec : ∀ (l : List String) (x : String), x ∈ dedupConsec l ↔ x ∈ l := by
  intro l x
  constructor
  · exact fun h => (dedupConsec_sublist l).subset h
  · intro hx
    cases l with
    | nil => simp at hx
    | cons a rest =>
      rw [dedupConsec]
      cases List.mem_cons.mp hx with
      | inl he => simp [he]
      | inr he =>
        cases mem_dedupConsecAfter rest a x he with
        | inl hp => simp [hp]
        | inr hm => exact List.mem_cons_of_mem _ hm

theorem sorted_dedupConsec (l : List String)
    (h : List.Sorted (fun a b => strLe a b = true) l) :
    List.Sorted (fun a b => strLe a b = true) (dedupConsec l) :=
  h.sublist (dedupConsec_sublist l)

theorem nodup_dedupConsecAfter :
    ∀ (l : List String) (prev : String),
      List.Sorted (fun a b => strLe a b = true) l → (∀ y ∈ l, strLe prev y = true) →
      (dedupConsecAfter prev l).Nodup ∧ prev ∉ dedupConsecAfter prev l := by
  intro l
  induction l with
  | nil => intro prev _ _; simp [dedupConsecAfter]
  | cons b rest ih =>
    intro prev hs hle
    rw [dedupConsecAfter]
    by_cases h : prev = b
    · rw [if_pos h]
      exact ih prev hs.of_cons (fun y hy => h ▸ List.rel_of_sorted_cons hs y hy)
    · rw [if_neg h]
      have hb := ih b hs.of_cons (fun y hy => List.rel_of_sorted_cons hs y hy)
      have hpb : strLe prev b = true := hle b (by simp)
      refine ⟨List.nodup_cons.mpr ⟨hb.2, hb.1⟩, ?_⟩
      intro hmem
      cases List.mem_cons.mp hmem with
      | inl he => exact h he
      | inr hm =>
        have hprest : prev ∈ rest := (dedupConsecAfter_sublist rest b).subset hm
        have hbp : strLe b prev = true := List.rel_of_sorted_cons hs prev hprest
        exact h (strLe_antisymm prev b hpb hbp)

theorem nodup_dedupConsec : ∀ l : List String,
    List.Sorted (fun a b => strLe a b = true) l → (dedupConsec l).Nodup := by
  intro l hs
  cases l with
  | nil => simp [dedupConsec]
  | cons a rest =>
    rw [dedupConsec]
    have h := nodup_dedupConsecAfter rest a hs.of_cons
      (fun y hy => List.rel_of_sorted_cons hs y hy)
    exact List.nodup_cons.mpr ⟨h.2, h.1⟩

theorem sorted_sortStrings (l : List String) :
    List.Sorted (fun a b => strLe a b = true) (sortStrings l) :=
  List.sorted_insertionSort (fun a b => strLe a b = true) l

theorem mem_sortStrings (l : List String) (x : String) : x ∈ sortStrings l ↔ x ∈ l :=
  List.mem_insertionSort (fun a b => strLe a b = true)

theorem collect_violation_fields_sorted (ast : ShaclAst) (data : Json) :
    List.Sorted (fun a b => strLe a b = true) (collect_violation_fields ast data) :=
  sorted_dedupConsec _ (sorted_sortStrings _)

theorem collect_violation_fields_nodup (ast : ShaclAst) (data : Json) :
    (collect_violation_fields ast data).Nodup :=
  nodup_dedupConsec _ (sorted_sortStrings _)

theorem mem_collect_violation_fields (ast : ShaclAst) (data : Json) (s : String) :
    s ∈ collect_violation_fields ast data ↔ s ∈ collect_paths ast := by
  unfold collect_violation_fields
  rw [mem_dedupConsec, mem_sortStrings]

-- ── Loose-equality characterization (supporting C4) ────────────────────

/-- Stringification of a bool or number primitive, as the spec words it
("the stringification of the other side's bool or number primitive"). -/
def primToString : Json → Option String
  | .bool bv => some (toString bv)
  | .num n => some (toString n)
  | _ => none

/-- Spec-side relation: `a` is a string equal to the stringification of
`b`'s bool or number primitive. -/
def strPrimMatch (a b : Json) : Prop :=
  ∃ s, a = .str s ∧ primToString b = some s

/-- Constructor tag of a JSON value (its "type" in the spec's sense). -/
def Json.tag : Json → Nat
  | .null => 0
  | .bool _ => 1
  | .num _ => 2
  | .str _ => 3
  | .arr _ => 4
  | .obj _ => 5

theorem values_equal_characterization (a b : Json) :
    values_equal a b = true ↔ (a = b ∨ strPrimMatch a b ∨ strPrimMatch b a) := by
  by_cases h : a = b
  · subst h
    simp [values_equal, Json.beq_eq_decide]
  · have hb : (a == b) = false := by
      rw [Json.beq_eq_decide]
      simp [h]
    unfold values_equal
    rw [hb]
    simp only [Bool.false_eq_true, if_false]
    cases a <;> cases b <;>
      simp_all [strMatches, strPrimMatch, primToString]
    all_goals exact eq_comm

theorem values_equal_json_eq_values_equal (a b : Json) :
    values_equal_json a b = values_equal a b := rfl

theorem values_equal_no_cross_type (a b : Json) (hne : Json.tag a ≠ Json.tag b)
    (ha : Json.tag a ≠ 3) (hb : Json.tag b ≠ 3) : values_equal a b = false := by
  cases hv : values_equal a b
  · rfl
  · rcases (values_equal_characterization a b).mp hv with heq | hm | hm
    · exact absurd (heq ▸ rfl) hne
    · obtain ⟨s, hs, _⟩ := hm
      exact absurd (by rw [hs]; rfl) ha
    · obtain ⟨s, hs, _⟩ := hm
      exact absurd (by rw [hs]; rfl) hb

-- ── Predicate-algebra facts (supporting C8) ────────────────────────────

/-- An `Expression` with exactly one child. -/
def isOneChildExpr : Predicate → Bool
  | .expression _ [_] => true
  | _ => false

/-- An AND `Expression` (the shape `Predicate::and` flattens). -/
def isAndExpr : Predicate → Bool
  | .expression .and _ => true
  | _ => false

/-- An OR `Expression` (the shape `Predicate::or` flattens). -/
def isOrExpr : Predicate → Bool
  | .expression .or _ => true
  | _ => false

theorem flattenAnd_cons_of_notAnd (p : Predicate) (rest : List Predicate)
    (h : isAndExpr p = false) : flattenAnd (p :: rest) = p :: flattenAnd rest := by
  cases p with
  | expression op children =>
    cases op with
    | and => simp [isAndExpr] at h
    | or => rfl
  | negated q => rfl
  | simple f t v => rfl

theorem flattenOr_cons_of_notOr (p : Predicate) (rest : List Predicate)
    (h : isOrExpr p = false) : flattenOr (p :: rest) = p :: flattenOr rest := by
  cases p with
  | expression op children =>
    cases op with
    | and => rfl
    | or => simp [isOrExpr] at h
  | negated q => rfl
  | simple f t v => rfl

theorem flattenAnd_singleton_not_one_child :
    ∀ (ps : List Predicate) (x : Predicate),
      flattenAnd ps = [x] → (∀ p ∈ ps, isOneChildExpr p = false) →
      isOneChildExpr x = false := by
  intro ps
  induction ps with
  | nil => intro x hf; simp [flattenAnd] at hf
  | cons p rest ih =>
    intro x hf hp
    cases p with
    | expression op children =>
      cases op with
      | and =>
        have hE : flattenAnd (Predicate.expression .and children :: rest)
            = children ++ flattenAnd rest := rfl
        rw [hE] at hf
        cases children with
        | nil =>
          simp at hf
          exact ih x hf (fun q hq => hp q (List.mem_cons_of_mem _ hq))
        | cons c1 ctail =>
          cases ctail with
          | nil =>
            have h1 := hp (Predicate.expression .and [c1]) (by simp)
            simp [isOneChildExpr] at h1
          | cons c2 ct2 =>
            simp at hf
      | or =>
        have hE : flattenAnd (Predicate.expression .or children :: rest)
            = Predicate.expression .or children :: flattenAnd rest :=
          flattenAnd_cons_of_notAnd _ _ rfl
        rw [hE] at hf
        injection hf with h1 _
        exact h1 ▸ hp _ (by simp)
    | negated q =>
      have hE : flattenAnd (Predicate.negated q :: rest)
          = Predicate.negated q :: flattenAnd rest := rfl
      rw [hE] at hf
      injection hf with h1 _
      exact h1 ▸ hp _ (by simp)
    | simple f t v =>
      have hE : flattenAnd (Predicate.simple f t v :: rest)
          = Predicate.simple f t v :: flattenAnd rest := rfl
      rw [hE] at hf
      injection hf with h1 _
      exact h1 ▸ hp _ (by simp)

theorem flattenOr_singleton_not_one_child :
    ∀ (ps : List Predicate) (x : Predicate),
      flattenOr ps = [x] → (∀ p ∈ ps, isOneChildExpr p = false) →
      isOneChildExpr x = false := by
  intro ps
  induction ps with
  | nil => intro x hf; simp [flattenOr] at hf
  | cons p rest ih =>
    intro x hf hp
    cases p with
    | expression op children =>
      cases op with
      | or =>
        have hE : flattenOr (Predicate.expression .or children :: rest)
            = children ++ flattenOr rest := rfl
        rw [hE] at hf
        cases children with
        | nil =>
          simp at hf
          exact ih x hf (fun q hq => hp q (List.mem_cons_of_mem _ hq))
        | cons c1 ctail =>
          cases ctail with
          | nil =>
            have h1 := hp (Predicate.expression .or [c1]) (by simp)
            simp [isOneChildExpr] at h1
          | cons c2 ct2 =>
            simp at hf
      | and =>
        have hE : flattenOr (Predicate.expression .and children :: rest)
            = Predicate.expression .and children :: flattenOr rest :=
          flattenOr_cons_of_notOr _ _ rfl
        rw [hE] at hf
        injection hf with h1 _
        exact h1 ▸ hp _ (by simp)
    | negated q =>
      have hE : flattenOr (Predicate.negated q :: rest)
          = Predicate.negated q :: flattenOr rest := rfl
      rw [hE] at hf
      injection hf with h1 _
      exact h1 ▸ hp _ (by simp)
    | simple f t v =>
      have hE : flattenOr (Predicate.simple f t v :: rest)
          = Predicate.simple f t v :: flattenOr rest := rfl
      rw [hE] at hf
      injection hf with h1 _
      exact h1 ▸ hp _ (by simp)

theorem predicateAnd_not_one_child (ps : List Predicate)
    (hp : ∀ p ∈ ps, isOneChildExpr p = false) :
    isOneChildExpr (Predicate.and ps) = false := by
  unfold Predicate.and
  cases hf : flattenAnd ps with
  | nil => rfl
  | cons y ytail =>
    cases ytail with
    | nil => exact flattenAnd_singleton_not_one_child ps y hf hp
    | cons y2 yt2 => rfl

theorem predicateOr_not_one_child (ps : List Predicate)
    (hp : ∀ p ∈ ps, isOneChildExpr p = false) :
    isOneChildExpr (Predicate.or ps) = false := by
  unfold Predicate.or
  cases hf : flattenOr ps with
  | nil => rfl
  | cons y ytail =>
    cases ytail with
    | nil => exact flattenOr_singleton_not_one_child ps y hf hp
    | cons y2 yt2 => rfl

theorem predicateAnd_flattens_one_level (a b c : Predicate) (ha : isAndExpr a = false)
    (hb : isAndExpr b = false) (hc : isAndExpr c = false) :
    Predicate.and [Predicate.and [a, b], c] = .expression .and [a, b, c] := by
  have h1 : flattenAnd [a, b] = [a, b] := by
    rw [flattenAnd_cons_of_notAnd a _ ha, flattenAnd_cons_of_notAnd b _ hb]
    rfl
  have h2 : Predicate.and [a, b] = .expression .and [a, b] := by
    unfold Predicate.and
    rw [h1]
  rw [h2]
  have h3 : flattenAnd [Predicate.expression .and [a, b], c] = [a, b, c] := by
    have hE : flattenAnd [Predicate.expression .and [a, b], c]
        = [a, b] ++ flattenAnd [c] := rfl
    rw [hE, flattenAnd_cons_of_notAnd c _ hc]
    rfl
  unfold Predicate.and
  rw [h3]

theorem predicateOr_flattens_one_level (a b c : Predicate) (ha : isOrExpr a = false)
    (hb : isOrExpr b = false) (hc : isOrExpr c = false) :
    Predicate.or [Predicate.or [a, b], c] = .expression .or [a, b, c] := by
  have h1 : flattenOr [a, b] = [a, b] := by
    rw [flattenOr_cons_of_notOr a _ ha, flattenOr_cons_of_notOr b _ hb]
    rfl
  have h2 : Predicate.or [a, b] = .expression .or [a, b] := by
    unfold Predicate.or
    rw [h1]
  rw [h2]
  have h3 : flattenOr [Predicate.expression .or [a, b], c] = [a, b, c] := by
    have hE : flattenOr [Predicate.expression .or [a, b], c]
        = [a, b] ++ flattenOr [c] := rfl
    rw [hE, flattenOr_cons_of_notOr c _ hc]
    rfl
  unfold Predicate.or
  rw [h3]

theorem predicateAnd_singleton_collapse (ps : List Predicate) (x : Predicate)
    (hf : flattenAnd ps = [x]) : Predicate.and ps = x := by
  unfold Predicate.and
  rw [hf]

theorem predicateOr_singleton_collapse (ps : List Predicate) (x : Predicate)
    (hf : flattenOr ps = [x]) : Predicate.or ps = x := by
  unfold Predicate.or
  rw [hf]

-- ── Concrete scenario data ─────────────────────────────────────────────

/-- The full IRI of the primary-status property used by the status-combo
rule. -/
def primaryIri : String := "https://data.infrabel.be/asset360/ceAssetPrimaryStatus"

/-- The full IRI of the secondary-status property. -/
def secondaryIri : String := "https://data.infrabel.be/asset360/ceAssetSecondaryStatus"

/-- The nine forbidden (primary, secondary) status pairs of Scenario A. -/
def forbiddenPairs : List (String × String) :=
  [("In_voorbereiding", "Verkocht"), ("In_voorbereiding", "Afgebroken"),
   ("In_voorbereiding", "Aangevuld"), ("In_voorbereiding", "Uit_dienst"),
   ("In_opvolging", "Verkocht"), ("In_opvolging", "Afgebroken"),
   ("In_opvolging", "Aangevuld"), ("In_opvolging", "Uit_dienst"),
   ("Uit_opvolging", "In_dienst")]

/-- The Scenario A rule: `Not(Or(...))` over the nine forbidden
(primary, secondary) `PropEquals`-pair conjunctions. -/
def statusComboAst : ShaclAst :=
  .not (.or (forbiddenPairs.map (fun ps =>
    .and [.propEquals (.iri primaryIri) (.str ps.1),
          .propEquals (.iri secondaryIri) (.str ps.2)])))

/-- The Scenario D raw fallback query: four triples, one per line. -/
def scenarioDQuery : String :=
  "$this A ?v .\n$this B true .\n?other A ?v .\n?other B true ."

/-- The Scenario D focus record. -/
def scenarioDFocus : List (String × Json) := [("A", .str "C7"), ("uri", .str "U42")]

/-- A non-introspectable rule carrying the Scenario D raw query. -/
def scenarioDShape : ShapeResult :=
  { shape_uri := "https://example.org/scenario-d"
    target_class := "TunnelComponent"
    enforcement_level := .serious
    message := ""
    affected_fields := []
    introspectable := false
    ast := none
    sparql := some scenarioDQuery }

/-- The shape IRI shared by the concrete parser inputs. -/
def testShapeUri : String := "https://data.infrabel.be/asset360/TestShape"

/-- Triple store for a shape with an unsupported `sh:pattern` property
constraint, annotated `asset360:introspectable true` (Scenario E). -/
def storePatternTrue : TripleStore :=
  ⟨[(testShapeUri,
     [(RDF_TYPE, .namedNode (sh "NodeShape")),
      (sh "targetClass", .namedNode (a360 "TunnelComponent")),
      (a360 "introspectable", .literal "true" none),
      (sh "property", .blankNode "b0")]),
    ("_:b0",
     [(sh "path", .namedNode (a360 "name")),
      (sh "pattern", .literal "^[A-Z]" none)])]⟩

/-- The same shape without the introspectable annotation (the default is to
attempt introspection). -/
def storePatternUnannotated : TripleStore :=
  ⟨[(testShapeUri,
     [(RDF_TYPE, .namedNode (sh "NodeShape")),
      (sh "targetClass", .namedNode (a360 "TunnelComponent")),
      (sh "property", .blankNode "b0")]),
    ("_:b0",
     [(sh "path", .namedNode (a360 "name")),
      (sh "pattern", .literal "^[A-Z]" none)])]⟩

/-- The same shape annotated `asset360:introspectable false`. -/
def storePatternFalse : TripleStore :=
  ⟨[(testShapeUri,
     [(RDF_TYPE, .namedNode (sh "NodeShape")),
      (sh "targetClass", .namedNode (a360 "TunnelComponent")),
      (a360 "introspectable", .literal "false" none),
      (sh "property", .blankNode "b0")]),
    ("_:b0",
     [(sh "path", .namedNode (a360 "name")),
      (sh "pattern", .literal "^[A-Z]" none)])]⟩

/-- Triple store for a shape annotated `asset360:introspectable false`
whose single property constraint (`sh:hasValue`) translates successfully. -/
def storeFalseOk : TripleStore :=
  ⟨[(testShapeUri,
     [(RDF_TYPE, .namedNode (sh "NodeShape")),
      (sh "targetClass", .namedNode (a360 "TunnelComponent")),
      (a360 "introspectable", .literal "false" none),
      (sh "property", .blankNode "b1")]),
    ("_:b1",
     [(sh "path", .namedNode (a360 "status")),
      (sh "hasValue", .literal "Actief" none)])]⟩

/-- The rule `parse_shacl` produces from `storeFalseOk`. -/
def falseOkResult : ShapeResult :=
  { shape_uri := testShapeUri
    target_class := "TunnelComponent"
    enforcement_level := .serious
    message := ""
    affected_fields := ["status"]
    introspectable := false
    ast := some (.propEquals (.iri (a360 "status")) (.str "Actief"))
    sparql := none }

/-- Sample simple predicates for the predicate-algebra claims. -/
def pZone : Predicate := .simple "zone" "equals" (some (.str "Zone 4"))

/-- Second sample simple predicate. -/
def pType : Predicate := .simple "asset_type" "equals" (some (.str "TunnelComponent"))

/-- Third sample simple predicate. -/
def pStatus : Predicate := .simple "status" "equals" (some (.str "deleted"))

/-- A degenerate one-child OR expression (constructible directly on the
`Predicate` enum, though not through the combinators). -/
def oneChildOrExpr : Predicate := .expression .or [pStatus]

-- ── Claim theorems ─────────────────────────────────────────────────────

/-- C1: for the Scenario A rule `Not(Or(...))` over the 9 forbidden
(primary, secondary) `PropEquals`-pair conjunctions, `solve_backward` with
known primary `In_voorbereiding` and target secondary returns an AND of
exactly 4 negated equals-predicates; with known `Uit_opvolging` a single
negated equals-predicate (not wrapped in AND); with known `In_dienst` none;
and with no known fields an AND of exactly 9 negated equals-predicates,
duplicates retained. -/
theorem claim_C1 :
    solve_backward statusComboAst [("ceAssetPrimaryStatus", .str "In_voorbereiding")]
        "ceAssetSecondaryStatus"
      = some (.expression .and
          (["Verkocht", "Afgebroken", "Aangevuld", "Uit_dienst"].map fun s =>
            Predicate.negated (.simple "ceAssetSecondaryStatus" "equals" (some (.str s)))))
    ∧ solve_backward statusComboAst [("ceAssetPrimaryStatus", .str "Uit_opvolging")]
        "ceAssetSecondaryStatus"
      = some (.negated (.simple "ceAssetSecondaryStatus" "equals" (some (.str "In_dienst"))))
    ∧ solve_backward statusComboAst [("ceAssetPrimaryStatus", .str "In_dienst")]
        "ceAssetSecondaryStatus" = none
    ∧ solve_backward statusComboAst [] "ceAssetSecondaryStatus"
      = some (.expression .and
          (forbiddenPairs.map fun ps =>
            Predicate.negated (.simple "ceAssetSecondaryStatus" "equals" (some (.str ps.2))))) :=
  ⟨rfl, rfl, rfl, rfl⟩

/-- C2: the data-model invariant says `introspectable = false` implies the
rule carries no AST; but a shape annotated `asset360:introspectable false`
whose constraint components translate successfully is emitted by
`parse_shacl` with `introspectable = false` AND a populated AST, violating
the invariant (the `ShapeResult` field docs state the AST is populated
"only if `introspectable` is true"). This theorem evaluates the parser at
the failing input. -/
theorem claim_C2 :
    parse_shacl storeFalseOk 100 "TunnelComponent" "" = .ok [falseOkResult]
    ∧ falseOkResult.introspectable = false
    ∧ falseOkResult.ast = some (.propEquals (.iri (a360 "status")) (.str "Actief"))
    ∧ falseOkResult.sparql = none :=
  ⟨rfl, rfl, rfl, rfl⟩

/-- C3: for every AST, record, message and enforcement level,
`evaluate_forward` returns either an empty list or exactly one violation;
on failure the violation's fields are the sorted, deduplicated local names
of every property-path reference in the AST, independent of the record,
and its message and enforcement level are the given arguments. -/
theorem claim_C3 (ast : ShaclAst) (data : Json) (message : String)
    (level : EnforcementLevel) :
    (eval_node ast data = true ∧ evaluate_forward ast data message level = []) ∨
    (eval_node ast data = false ∧ ∃ v : Violation,
      evaluate_forward ast data message level = [v] ∧
      v.message = message ∧ v.enforcement_level = level ∧ v.suggested_fix = none ∧
      (∀ data2 : Json, v.fields = collect_violation_fields ast data2) ∧
      List.Sorted (fun a b => strLe a b = true) v.fields ∧ v.fields.Nodup ∧
      (∀ s, s ∈ v.fields ↔ s ∈ collect_paths ast)) := by
  cases h : eval_node ast data with
  | true => exact Or.inl ⟨rfl, by simp [evaluate_forward, h]⟩
  | false =>
    refine Or.inr ⟨rfl,
      ⟨{ fields := collect_violation_fields ast data
         message := message
         enforcement_level := level
         suggested_fix := none },
       by simp [evaluate_forward, h], rfl, rfl, rfl, fun data2 => rfl,
       collect_violation_fields_sorted ast data, collect_violation_fields_nodup ast data,
       fun s => mem_collect_violation_fields ast data s⟩⟩

/-- C4: loose equality (`values_equal`, and `values_equal_json` used by the
backward solver) holds exactly when the two JSON values are structurally
equal or one side is a string equal to the stringification of the other
side's bool or number primitive; `"true"` equals `true`, `"42"` equals
`42`, `true` does not equal `1`, and no two differently-typed non-string
values are ever coerced equal. -/
theorem claim_C4 :
    (∀ a b, values_equal_json a b = values_equal a b) ∧
    (∀ a b, values_equal a b = true ↔ (a = b ∨ strPrimMatch a b ∨ strPrimMatch b a)) ∧
    (values_equal (.str "true") (.bool true) = true ∧
      values_equal (.str "42") (.num 42) = true ∧
      values_equal (.bool true) (.num 1) = false) ∧
    (∀ a b, Json.tag a ≠ Json.tag b → Json.tag a ≠ 3 → Json.tag b ≠ 3 →
      values_equal a b = false) :=
  ⟨values_equal_json_eq_values_equal, values_equal_characterization,
   ⟨rfl, rfl, rfl⟩, values_equal_no_cross_type⟩

/-- Witness for C4: the no-cross-type-coercion conjunct applied at the
concrete pair `null` / `[]`. -/
theorem claim_C4_witness :
    Json.tag .null ≠ Json.tag (.arr []) ∧ Json.tag .null ≠ 3
      ∧ Json.tag (.arr []) ≠ 3 ∧ values_equal .null (.arr []) = false :=
  ⟨by decide, by decide, by decide,
   claim_C4.2.2.2 .null (.arr []) (by decide) (by decide) (by decide)⟩

/-- C5: for the Scenario D raw query (`$this A ?v`, `$this B true`,
`?other A ?v`, `?other B true`, one triple per line) the shared attribute
set is exactly `{A}` (`B` binds a literal, not a variable), and with focus
`{A: "C7", uri: "U42"}` and URI field `uri`, `derive_scope_predicate`
returns `AND(Equals(A,"C7"), NOT(Equals(uri,"U42")))`. -/
theorem claim_C5 :
    extract_shared_attribute_joins scenarioDQuery = ["A"] ∧
    derive_scope_predicate scenarioDShape scenarioDFocus "uri"
      = some (.expression .and
          [.simple "A" "equals" (some (.str "C7")),
           .negated (.simple "uri" "equals" (some (.str "U42")))]) :=
  ⟨rfl, rfl⟩

set_option maxRecDepth 8000 in
/-- C6: a shape with an unsupported value-constraint predicate
(`sh:pattern`) parses to an `UnsupportedConstruct` error naming the field,
listing the predicates found, the supported constraint set and a
remediation hint, when `introspectable` is `true` — and identically when
the annotation is absent; the same shape annotated
`asset360:introspectable false` parses into a degenerate rule with no AST,
no raw query, and empty affected fields. -/
theorem claim_C6 :
    (∃ msg, parse_shacl storePatternTrue 100 "TunnelComponent" ""
        = .error (.unsupportedConstruct msg)
      ∧ strContains msg "name" = true
      ∧ strContains msg "pattern" = true
      ∧ strContains msg ("Supported property constraints: sh:hasValue, sh:in,"
          ++ " sh:minCount, sh:maxCount, sh:equals, sh:disjoint") = true
      ∧ strContains msg ("Hint: Set `asset360:introspectable false` and use"
          ++ " `sh:sparql` for this constraint") = true)
    ∧ parse_shacl storePatternUnannotated 100 "TunnelComponent" ""
      = parse_shacl storePatternTrue 100 "TunnelComponent" ""
    ∧ (∃ r, parse_shacl storePatternFalse 100 "TunnelComponent" "" = .ok [r]
      ∧ r.introspectable = false ∧ r.ast = none ∧ r.sparql = none
      ∧ r.affected_fields = []) :=
  ⟨⟨_, rfl, rfl, rfl, rfl, rfl⟩, rfl, ⟨_, rfl, rfl, rfl, rfl, rfl⟩⟩

/-- C7: the backward solver's `simplify` is idempotent: for every
intermediate node, `simplify (simplify x)` is structurally equal to
`simplify x`. -/
theorem claim_C7 (x : Simplified) : simplify (simplify x) = simplify x :=
  simplify_of_isSimp (simplify x) (simplify_isSimp x)

/-- C8 (amended): `Predicate.and` / `Predicate.or` flatten one level of
same-operator nested expression children — `and([and([a,b]), c])` has
exactly 3 children whenever `a`, `b`, `c` are not themselves AND
expressions — and, for every input list in which exactly one child remains
after flattening, return that child itself; consequently, provided no
input element is itself an `Expression` with exactly one child, neither
combinator returns an `Expression` with exactly one child. (The
unconditional claim fails: a degenerate one-child `Expression` contained
in the input can be returned as-is, see the counterexample.) -/
theorem claim_C8 :
    (∀ a b c : Predicate, isAndExpr a = false → isAndExpr b = false →
      isAndExpr c = false →
      Predicate.and [Predicate.and [a, b], c] = .expression .and [a, b, c])
    ∧ (∀ a b c : Predicate, isOrExpr a = false → isOrExpr b = false →
      isOrExpr c = false →
      Predicate.or [Predicate.or [a, b], c] = .expression .or [a, b, c])
    ∧ (∀ (ps : List Predicate) (x : Predicate), flattenAnd ps = [x] →
      Predicate.and ps = x)
    ∧ (∀ (ps : List Predicate) (x : Predicate), flattenOr ps = [x] →
      Predicate.or ps = x)
    ∧ (∀ ps : List Predicate, (∀ p ∈ ps, isOneChildExpr p = false) →
      isOneChildExpr (Predicate.and ps) = false)
    ∧ (∀ ps : List Predicate, (∀ p ∈ ps, isOneChildExpr p = false) →
      isOneChildExpr (Predicate.or ps) = false) :=
  ⟨predicateAnd_flattens_one_level, predicateOr_flattens_one_level,
   predicateAnd_singleton_collapse, predicateOr_singleton_collapse,
   predicateAnd_not_one_child, predicateOr_not_one_child⟩

/-- Counterexample for C8 as frozen: `Predicate.and` applied to a list
holding one degenerate one-child OR expression returns that expression
itself, which is an `Expression` with exactly one child. -/
theorem claim_C8_counterexample :
    Predicate.and [oneChildOrExpr] = oneChildOrExpr
      ∧ isOneChildExpr (Predicate.and [oneChildOrExpr]) = true :=
  ⟨rfl, rfl⟩

/-- Witness for C8: the flattening and no-one-child conjuncts at concrete
simple predicates. -/
theorem claim_C8_witness :
    Predicate.and [Predicate.and [pZone, pType], pStatus]
      = .expression .and [pZone, pType, pStatus]
    ∧ isOneChildExpr (Predicate.and [pZone, pStatus]) = false :=
  ⟨claim_C8.1 pZone pType pStatus (by decide) (by decide) (by decide),
   claim_C8.2.2.2.2.1 [pZone, pStatus] (by decide)⟩

/-- C9: a `PropertyPath::Iri` whose IRI contains neither `#` nor `/` has no
local name; forward path resolution falls back to the whole IRI as the
field name (so `PropEquals` on such a path is evaluated against that
field), while backward substitution treats the constraint as
unconstrained (`Bool(true)`) and violation-field collection omits it. -/
theorem claim_C9 (s : String) (hh : '#' ∉ s.data) (hs : '/' ∉ s.data) :
    PropertyPath.local_name (.iri s) = none
    ∧ (∀ data : Json, resolve_path data (.iri s) = jsonGet data s)
    ∧ (∀ data v : Json,
        eval_node (.propEquals (.iri s) v) data
          = match jsonGet data s with
            | some actual => values_equal actual v
            | none => false)
    ∧ (∀ (known : List (String × Json)) (target : String) (v : Json),
        substitute (.propEquals (.iri s) v) known target = .bool true)
    ∧ (∀ v : Json, collect_paths (.propEquals (.iri s) v) = []) := by
  have h1 : rsplitOnce '#' s = none := by
    unfold rsplitOnce
    rw [(rsplitOnceChars_eq_none_iff '#' s.data).mpr hh]
  have h2 : rsplitOnce '/' s = none := by
    unfold rsplitOnce
    rw [(rsplitOnceChars_eq_none_iff '/' s.data).mpr hs]
  have hln : PropertyPath.local_name (.iri s) = none := by
    simp only [PropertyPath.local_name, h1, h2]
  refine ⟨hln, ?_, ?_, ?_, ?_⟩
  · intro data
    simp only [resolve_path, h1, h2]
  · intro data v
    simp only [eval_node, resolve_path, h1, h2]
  · intro known target v
    simp only [substitute, hln]
  · intro v
    simp only [collect_paths, pushName, hln]

/-- Witness for C9: the claim applied at the bare IRI `status`. -/
theorem claim_C9_witness :
    PropertyPath.local_name (.iri "status") = none
    ∧ substitute (.propEquals (.iri "status") (.str "x")) [] "status" = .bool true
    ∧ eval_node (.propEquals (.iri "status") (.str "x"))
        (.obj [("status", .str "x")]) = true :=
  ⟨(claim_C9 "status" (by decide) (by decide)).1,
   (claim_C9 "status" (by decide) (by decide)).2.2.2.1 [] "status" (.str "x"),
   by
    rw [(claim_C9 "status" (by decide) (by decide)).2.2.1
      (.obj [("status", .str "x")]) (.str "x")]
    rfl⟩

/-- C10: `ConstraintSet::solve` on a record that is not a JSON object
returns `none`, whatever the shapes, schema view and target field. -/
theorem claim_C10 (cs : ConstraintSet) (target_field : String) (j : Json)
    (h : ∀ fields, j ≠ .obj fields) :
    cs.solve j target_field = none := by
  cases j with
  | obj fields => exact absurd rfl (h fields)
  | null => rfl
  | bool b => rfl
  | num n => rfl
  | str s => rfl
  | arr items => rfl

/-- Witness for C10: a constraint set holding a shape, solved against a
string record. -/
theorem claim_C10_witness :
    ConstraintSet.solve ⟨[scenarioDShape], none, none⟩ (.str "hello") "zone" = none :=
  claim_C10 ⟨[scenarioDShape], none, none⟩ "zone" (.str "hello")
    (fun _ h => Json.noConfusion h)
